import Mathlib

/-!
Shallow embedding of the shoaling/breaking visualization core of
`TigerLine/frontend/src/components/PhysicsView.tsx`.

Conventions of the embedding:
* JavaScript numbers are modelled as `ℚ` wherever the source computes with
  rational arithmetic; the trigonometric surface synthesis is modelled over `ℝ`
  with `Real.sin` and `Real.pi` standing for `Math.sin` / `Math.PI`.
* Every shoaling-path sample is modelled with all four numeric fields present
  (`x`, `h`, `H`, `c`); the JavaScript idiom `v || d` (which substitutes `d`
  both for a missing field and for the value `0`) is modelled by `jsOr`.
* The display-unit projector (`convertHeight` / `convertDistance` from the
  UnitContext source) is the identity in metric mode; the embedding works in
  metric units throughout, so conversions are identities and are omitted.
* JavaScript `Array.prototype.sort` is stable (ES2019); it is modelled by
  `List.insertionSort`, which is likewise stable.
-/

namespace TigerLine

/-- A point of the shoaling path: distance from shore `x`, depth `h`,
wave height `H`, phase speed `c` (all in metric units). -/
structure Sample where
  x : ℚ
  h : ℚ
  H : ℚ
  c : ℚ
deriving DecidableEq, Repr

/-- JavaScript `v || d` on a number that is present: yields `d` exactly when
`v = 0` (zero is falsy). -/
def jsOr (v d : ℚ) : ℚ := if v = 0 then d else v

/-- JavaScript `v || d` on a possibly-missing number. -/
def jsOrO (v : Option ℚ) (d : ℚ) : ℚ :=
  match v with
  | some x => jsOr x d
  | none => d

/-- The `p.c || 10.0` defaulting used for phase speeds. -/
def cor (c : ℚ) : ℚ := jsOr c 10

@[simp] theorem jsOr_zero_right (v : ℚ) : jsOr v 0 = v := by
  unfold jsOr; split <;> simp_all

/-- One step of the `closestBefore` accumulator of the interpolation loops
(lines 97–108, 198–209, 395–406 of PhysicsView.tsx).  The source compares
`(p.x || 0) < (closestBefore.x || Infinity)`: when the current best has
`x = 0` the right side is `Infinity` and any candidate replaces it. -/
def updBefore (xm : ℚ) (acc : Option Sample) (p : Sample) : Option Sample :=
  if xm ≤ p.x then
    match acc with
    | none => some p
    | some b => if b.x = 0 ∨ p.x < b.x then some p else some b
  else acc

/-- One step of the `closestAfter` accumulator: keep the seen sample of largest
`x ≤ xm`, the earlier sample winning ties (`(p.x || 0) > (closestAfter.x || 0)`). -/
def updAfter (xm : ℚ) (acc : Option Sample) (p : Sample) : Option Sample :=
  if p.x ≤ xm then
    match acc with
    | none => some p
    | some a => if a.x < p.x then some p else some a
  else acc

/-- `closestBefore` after the whole scan: the sample of smallest distance
`≥ xm` (modulo the `|| Infinity` quirk recorded in `updBefore`). -/
def findBefore (path : List Sample) (xm : ℚ) : Option Sample :=
  path.foldl (updBefore xm) none

/-- `closestAfter` after the whole scan: the sample of largest distance `≤ xm`. -/
def findAfter (path : List Sample) (xm : ℚ) : Option Sample :=
  path.foldl (updAfter xm) none

/-- The shared interpolation skeleton: given the two scan results, blend the
field `val` linearly; if the bounds share a distance return the before-value;
with a single bound return its value; `none` when the path is empty. -/
def interpOn (path : List Sample) (xm : ℚ) (val : Sample → ℚ) : Option ℚ :=
  match findBefore path xm, findAfter path xm with
  | some b, some a =>
      some (if b.x ≠ a.x then val a + (xm - a.x) / (b.x - a.x) * (val b - val a)
            else val b)
  | some b, none => some (val b)
  | none, some a => some (val a)
  | none, none => none

/-- Depth interpolation of the bathymetry builder (lines 94–122): the empty
fallback estimates depth from a 3 % beach slope, clamped at 0. -/
def h_interp (path : List Sample) (xm : ℚ) : ℚ :=
  (interpOn path xm (fun s => s.h)).getD (max 0 (xm * (3 / 100)))

/-- Wave-height interpolation of the envelope builder (lines 189–223): guarded
by a non-empty path and `x_m ≥ 0`, defaulting to `H = 0`. -/
def HEnv (path : List Sample) (xm : ℚ) : ℚ :=
  if path ≠ [] ∧ 0 ≤ xm then (interpOn path xm (fun s => s.H)).getD 0 else 0

/-- Phase-speed interpolation of the envelope builder (lines 211–222), the
code path that blends `c` with the general linear rule. -/
def cEnv (path : List Sample) (xm : ℚ) : ℚ :=
  if path ≠ [] ∧ 0 ≤ xm then
    (match findBefore path xm, findAfter path xm with
     | some b, some a =>
         if b.x ≠ a.x then
           cor a.c + (xm - a.x) / (b.x - a.x) * (cor b.c - cor a.c)
         else cor b.c
     | some b, none => cor b.c
     | none, some a => cor a.c
     | none, none => 10)
  else 10

/-- Wave-height interpolation inside the surface-synthesis loop
(lines 387–420): guarded only by a non-empty path. -/
def Hloop (path : List Sample) (xm : ℚ) : ℚ :=
  if path ≠ [] then (interpOn path xm (fun s => s.H)).getD 0 else 0

/-- Phase-speed blending inside the surface-synthesis loop, embedded verbatim
from line 412: the second factor is `(closestBefore.c || 10.0) -
(closestBefore.c || 10.0)`, i.e. the before-value minus itself. -/
def cLoop (path : List Sample) (xm : ℚ) : ℚ :=
  if path ≠ [] then
    (match findBefore path xm, findAfter path xm with
     | some b, some a =>
         if b.x ≠ a.x then
           cor a.c + (xm - a.x) / (b.x - a.x) * (cor b.c - cor b.c)
         else cor b.c
     | some b, none => cor b.c
     | none, some a => cor a.c
     | none, none => 10)
  else 10

/-- Stable ascending sort by a rational key (JS `sort((a,b) => key a - key b)`). -/
def sortAscBy {α : Type} (key : α → ℚ) (l : List α) : List α :=
  l.insertionSort (fun p q => key p ≤ key q)

/-- Stable descending sort by a rational key (JS `sort((a,b) => key b - key a)`). -/
def sortDescBy {α : Type} (key : α → ℚ) (l : List α) : List α :=
  l.insertionSort (fun p q => key q ≤ key p)

theorem sortAscBy_perm {α : Type} (key : α → ℚ) (l : List α) :
    List.Perm (sortAscBy key l) l :=
  List.perm_insertionSort _ l

theorem sortDescBy_perm {α : Type} (key : α → ℚ) (l : List α) :
    List.Perm (sortDescBy key l) l :=
  List.perm_insertionSort _ l

theorem sortAscBy_sorted {α : Type} (key : α → ℚ) (l : List α) :
    (sortAscBy key l).Sorted (fun p q => key p ≤ key q) := by
  haveI : IsTotal α (fun p q => key p ≤ key q) := ⟨fun a b => le_total (key a) (key b)⟩
  haveI : IsTrans α (fun p q => key p ≤ key q) :=
    ⟨fun a b c hab hbc => le_trans hab hbc⟩
  exact List.sorted_insertionSort _ l

theorem sortDescBy_sorted {α : Type} (key : α → ℚ) (l : List α) :
    (sortDescBy key l).Sorted (fun p q => key q ≤ key p) := by
  haveI : IsTotal α (fun p q => key q ≤ key p) := ⟨fun a b => le_total (key b) (key a)⟩
  haveI : IsTrans α (fun p q => key q ≤ key p) :=
    ⟨fun a b c hab hbc => le_trans hbc hab⟩
  exact List.sorted_insertionSort _ l

/-- The breaking qualification test of lines 152–154: defined depth is
positive and `H / h ≥ 0.78`. -/
def qualB (p : Sample) : Bool :=
  decide (0 < p.h) && decide ((78 : ℚ) / 100 ≤ p.H / p.h)

/-- Breaking-point detection (lines 146–165): sort the path by decreasing
distance and return the first qualifying sample, with the `c` field defaulted
by `|| 10.0`. -/
def breakingPointFromPhysics (path : List Sample) : Option Sample :=
  ((sortDescBy (fun p => p.x) path).find? qualB).map
    (fun p => ⟨p.x, p.h, p.H, cor p.c⟩)

/-- Line 169: `breakingPointFromPhysics?.x || breaking.distance_from_shore_m
|| 0`, a truthiness chain.  `apiDist` is the externally supplied fallback
distance (absent or present). -/
def breakingDistM (path : List Sample) (apiDist : Option ℚ) : ℚ :=
  match breakingPointFromPhysics path with
  | some b => jsOr b.x (jsOrO apiDist 0)
  | none => jsOrO apiDist 0

/-- Lines 262–266: the breaking distance projected for display (identity in
metric mode), with its own fallback to the raw API value. -/
def breakingDistDisplay (path : List Sample) (apiDist : Option ℚ) : ℚ :=
  if 0 < breakingDistM path apiDist then breakingDistM path apiDist
  else match apiDist with
       | some d => d
       | none => 0

/-- The end-to-end example sample set of spec §8: `(d=200,h=5,H=1.0,c=8)`,
`(d=50,h=1.0,H=0.9,c=5)`, `(d=0,h=0,H=0,c=0)`. -/
def path8 : List Sample := [⟨200, 5, 1, 8⟩, ⟨50, 1, 9/10, 5⟩, ⟨0, 0, 0, 0⟩]

/-- `qualB` decoded as a proposition. -/
theorem qualB_iff (p : Sample) :
    qualB p = true ↔ 0 < p.h ∧ (78 : ℚ) / 100 ≤ p.H / p.h := by
  simp [qualB]

/-- In a list sorted by descending key, the first match of `find?` has the
largest key among all matches. -/
theorem find?_sorted_key_max {α : Type} (key : α → ℚ) (p : α → Bool) :
    ∀ l : List α, l.Sorted (fun a b => key b ≤ key a) →
      ∀ r, l.find? p = some r → ∀ q ∈ l, p q = true → key q ≤ key r := by
  intro l
  induction l with
  | nil => intro _ r hr; simp at hr
  | cons a t ih =>
    intro hs r hr q hq hpq
    by_cases hpa : p a = true
    · rw [List.find?_cons_of_pos _ hpa] at hr
      injection hr with hr; subst hr
      rcases List.mem_cons.mp hq with rfl | hqt
      · exact le_refl _
      · exact List.rel_of_sorted_cons hs q hqt
    · rw [List.find?_cons_of_neg _ hpa] at hr
      rcases List.mem_cons.mp hq with rfl | hqt
      · exact absurd hpq hpa
      · exact ih hs.of_cons r hr q hqt hpq

/-- Detection returns `none` exactly when no sample qualifies. -/
theorem breakingPoint_none_iff (path : List Sample) :
    breakingPointFromPhysics path = none ↔
      ∀ q ∈ path, ¬(0 < q.h ∧ (78 : ℚ) / 100 ≤ q.H / q.h) := by
  unfold breakingPointFromPhysics
  rw [Option.map_eq_none', List.find?_eq_none]
  constructor
  · intro hnone q hq hqual
    exact absurd ((qualB_iff q).mpr hqual)
      (by simpa using hnone q (((sortDescBy_perm (fun p => p.x) path).mem_iff).mpr hq))
  · intro hnone q hq
    have hq' : q ∈ path := ((sortDescBy_perm (fun p => p.x) path).mem_iff).mp hq
    simpa [qualB_iff] using fun hh h78 => hnone q hq' ⟨hh, h78⟩

/-- A detected breaking point comes from a qualifying sample of the path with
maximal distance among qualifiers, and stores its fields with `c` defaulted. -/
theorem breakingPoint_some_spec (path : List Sample) (r : Sample)
    (hr : breakingPointFromPhysics path = some r) :
    ∃ p, p ∈ path ∧ 0 < p.h ∧ (78 : ℚ) / 100 ≤ p.H / p.h ∧
      r = ⟨p.x, p.h, p.H, cor p.c⟩ ∧
      (∀ q ∈ path, 0 < q.h → (78 : ℚ) / 100 ≤ q.H / q.h → q.x ≤ p.x) := by
  unfold breakingPointFromPhysics at hr
  rcases hfind : (sortDescBy (fun p => p.x) path).find? qualB with _ | p
  · rw [hfind] at hr; exact absurd hr (by simp)
  · rw [hfind, Option.map_some'] at hr
    injection hr with hr
    have hpmem : p ∈ sortDescBy (fun p => p.x) path := List.mem_of_find?_eq_some hfind
    have hpq : qualB p = true := List.find?_some hfind
    rcases (qualB_iff p).mp hpq with ⟨hh, hr78⟩
    refine ⟨p, ?_, hh, hr78, hr.symm, ?_⟩
    · exact ((sortDescBy_perm (fun p => p.x) path).mem_iff).mp hpmem
    · intro q hq hqh hq78
      have hqmem : q ∈ sortDescBy (fun p => p.x) path :=
        ((sortDescBy_perm (fun p => p.x) path).mem_iff).mpr hq
      exact find?_sorted_key_max (fun p => p.x) qualB _
        (sortDescBy_sorted (fun p => p.x) path) p hfind q hqmem
        ((qualB_iff q).mpr ⟨hqh, hq78⟩)

/-- C2: breaking-point detection is deterministic (it is a function of the
sample list); when it returns a result, that result is a sample of the path
with positive depth and ratio `H/h ≥ 0.78` (so zero/negative-depth samples
are never selected), its distance is maximal among all qualifying samples,
and the stored record carries the sample fields with `c` defaulted by
`|| 10.0`; it returns `none` exactly when no sample qualifies. -/
theorem C2_breaking_detection (path : List Sample) :
    (∀ r, breakingPointFromPhysics path = some r →
      ∃ p, p ∈ path ∧ 0 < p.h ∧ (78 : ℚ) / 100 ≤ p.H / p.h ∧
        r = ⟨p.x, p.h, p.H, cor p.c⟩ ∧
        (∀ q ∈ path, 0 < q.h → (78 : ℚ) / 100 ≤ q.H / q.h → q.x ≤ p.x)) ∧
    (breakingPointFromPhysics path = none ↔
      ∀ q ∈ path, ¬(0 < q.h ∧ (78 : ℚ) / 100 ≤ q.H / q.h)) :=
  ⟨fun r hr => breakingPoint_some_spec path r hr, breakingPoint_none_iff path⟩

/-- C2 witness: on the §8 sample set the detector returns the sample at
distance 50 and that distance bounds every qualifier. -/
theorem C2_breaking_detection_witness :
    breakingPointFromPhysics path8 = some ⟨50, 1, 9/10, 5⟩ ∧
    ∀ q ∈ path8, 0 < q.h → (78 : ℚ) / 100 ≤ q.H / q.h → q.x ≤ 50 := by
  have hdet : breakingPointFromPhysics path8 = some ⟨50, 1, 9/10, 5⟩ := by
    norm_num [breakingPointFromPhysics, path8, sortDescBy, qualB, cor, jsOr, List.find?]
  refine ⟨hdet, ?_⟩
  obtain ⟨p, _, _, _, hrec, hmax⟩ := (C2_breaking_detection path8).1 _ hdet
  have hx : p.x = 50 := by
    have := congrArg Sample.x hrec
    simpa using this.symm
  intro q hq hqh hq78
  simpa [hx] using hmax q hq hqh hq78

/-- C8: on the §8 sample set detection yields `(50, 1.0, 0.9, 5)` and the
interpolated depth at distance 100 is exactly `7/3` m, which rounds to the
spec figure 2.33 m (it is within half a centimetre of `233/100`). -/
theorem C8_end_to_end :
    breakingPointFromPhysics path8 = some ⟨50, 1, 9/10, 5⟩ ∧
    h_interp path8 100 = 7/3 ∧
    |(7 : ℚ)/3 - 233/100| ≤ 1/200 := by
  refine ⟨?_, ?_, by norm_num [abs_le]⟩
  · norm_num [breakingPointFromPhysics, path8, sortDescBy, qualB, cor, jsOr, List.find?]
  · norm_num [h_interp, path8, interpOn, findBefore, findAfter, List.foldl, updBefore, updAfter]

/-- C4: the phase-speed blend of the surface-synthesis loop (line 412)
subtracts the before-sample speed from itself, so it always returns the
after-sample speed; on the §8 sample set at distance 100 the loop blend gives
5 while the correct linear rule (implemented at line 215 for the envelope)
gives 6. -/
theorem C4_phase_speed_blend_bug :
    cLoop path8 100 = 5 ∧ cEnv path8 100 = 6 ∧ (5 : ℚ) ≠ 6 := by
  refine ⟨?_, ?_, by norm_num⟩
  · norm_num [cLoop, path8, findBefore, findAfter, List.foldl, updBefore, updAfter, cor, jsOr,
      List.cons_ne_nil]
  · norm_num [cEnv, path8, findBefore, findAfter, List.foldl, updBefore, updAfter, cor, jsOr,
      List.cons_ne_nil]

/-- C10: when the detected breaking point lies at distance exactly 0, the
truthiness chain `bp?.x || apiDist || 0` discards it: the effective breaking
distance equals the external fallback (0 when none is supplied), the same
value obtained when detection reports not-found. -/
theorem C10_zero_distance_fallback (path : List Sample) (apiDist : Option ℚ)
    (b : Sample) (hb : breakingPointFromPhysics path = some b) (hb0 : b.x = 0) :
    breakingDistM path apiDist = jsOrO apiDist 0 ∧
    (apiDist = none → breakingDistM path apiDist = 0) ∧
    (∀ path2 : List Sample, breakingPointFromPhysics path2 = none →
      breakingDistM path2 apiDist = breakingDistM path apiDist) := by
  have h1 : breakingDistM path apiDist = jsOrO apiDist 0 := by
    unfold breakingDistM
    rw [hb]
    simp [jsOr, hb0]
  refine ⟨h1, ?_, ?_⟩
  · intro h; subst h; simpa [jsOrO] using h1
  · intro path2 h2
    have h2' : breakingDistM path2 apiDist = jsOrO apiDist 0 := by
      unfold breakingDistM; rw [h2]
    rw [h2', h1]

/-- The two-sample set whose offshore-most qualifying sample sits exactly at
the shoreline (distance 0). -/
def path6 : List Sample := [⟨0, 1, 9/10, 5⟩, ⟨152, 10, 1, 8⟩]

/-- C10 witness: on `path6` (breaking detected at distance 0) the effective
breaking distance is the supplied fallback 7, exactly the value obtained on a
sample set where nothing qualifies. -/
theorem C10_zero_distance_fallback_witness :
    breakingDistM path6 (some 7) = 7 ∧
    breakingDistM [⟨152, 10, 1, 8⟩] (some 7) = 7 := by
  have hdet : breakingPointFromPhysics path6 = some ⟨0, 1, 9/10, 5⟩ := by
    norm_num [breakingPointFromPhysics, path6, sortDescBy, qualB, cor, jsOr, List.find?]
  obtain ⟨h1, _, h3⟩ :=
    C10_zero_distance_fallback path6 (some 7) ⟨0, 1, 9/10, 5⟩ hdet rfl
  refine ⟨by simpa [jsOrO, jsOr] using h1, ?_⟩
  rw [h3 [⟨152, 10, 1, 8⟩] ?_]
  · simpa [jsOrO, jsOr] using h1
  · norm_num [breakingPointFromPhysics, sortDescBy, qualB, cor, jsOr, List.find?]

/-- Specification of the `closestAfter` scan result. -/
def isAfterRes (xm : ℚ) (l : List Sample) : Option Sample → Prop
  | none => ∀ q ∈ l, ¬ q.x ≤ xm
  | some a => a.x ≤ xm ∧ a ∈ l ∧ ∀ q ∈ l, q.x ≤ xm → q.x ≤ a.x

/-- Specification of the `closestBefore` scan result in the quirk-free case
(no candidate at distance 0). -/
def isBeforeRes (xm : ℚ) (l : List Sample) : Option Sample → Prop
  | none => ∀ q ∈ l, ¬ xm ≤ q.x
  | some b => xm ≤ b.x ∧ b ∈ l ∧ ∀ q ∈ l, xm ≤ q.x → b.x ≤ q.x

/-- Weak specification of the `closestBefore` scan result, valid even when the
`|| Infinity` quirk can fire: the result is a candidate of the list. -/
def isBeforeResW (xm : ℚ) (l : List Sample) : Option Sample → Prop
  | none => ∀ q ∈ l, ¬ xm ≤ q.x
  | some b => xm ≤ b.x ∧ b ∈ l

theorem findAfter_spec (xm : ℚ) (l : List Sample) :
    isAfterRes xm l (findAfter l xm) := by
  induction l using List.reverseRecOn with
  | nil => intro q hq; simp at hq
  | append_singleton l p ih =>
    unfold findAfter at ih ⊢
    rw [List.foldl_append, List.foldl_cons, List.foldl_nil]
    rcases hr : l.foldl (updAfter xm) none with _ | a
    · rw [hr] at ih
      by_cases hp : p.x ≤ xm
      · simp only [updAfter, if_pos hp, isAfterRes]
        refine ⟨hp, by simp, ?_⟩
        intro q hq _
        rcases List.mem_append.mp hq with hql | hqp
        · exact absurd (by assumption) (ih q hql)
        · rw [List.mem_singleton.mp hqp]
      · simp only [updAfter, if_neg hp, isAfterRes]
        intro q hq
        rcases List.mem_append.mp hq with hql | hqp
        · exact ih q hql
        · rw [List.mem_singleton.mp hqp]; exact hp
    · rw [hr] at ih
      obtain ⟨hax, hamem, hamax⟩ := ih
      by_cases hp : p.x ≤ xm
      · by_cases hlt : a.x < p.x
        · simp only [updAfter, if_pos hp, if_pos hlt, isAfterRes]
          refine ⟨hp, by simp, ?_⟩
          intro q hq hqle
          rcases List.mem_append.mp hq with hql | hqp
          · exact (lt_of_le_of_lt (hamax q hql hqle) hlt).le
          · rw [List.mem_singleton.mp hqp]
        · simp only [updAfter, if_pos hp, if_neg hlt, isAfterRes]
          refine ⟨hax, List.mem_append_left _ hamem, ?_⟩
          intro q hq hqle
          rcases List.mem_append.mp hq with hql | hqp
          · exact hamax q hql hqle
          · rw [List.mem_singleton.mp hqp]; exact le_of_not_lt hlt
      · simp only [updAfter, if_neg hp, isAfterRes]
        refine ⟨hax, List.mem_append_left _ hamem, ?_⟩
        intro q hq hqle
        rcases List.mem_append.mp hq with hql | hqp
        · exact hamax q hql hqle
        · exact absurd (List.mem_singleton.mp hqp ▸ hqle) hp

theorem findBefore_spec (xm : ℚ) (l : List Sample)
    (hz : ∀ q ∈ l, xm ≤ q.x → q.x ≠ 0) :
    isBeforeRes xm l (findBefore l xm) := by
  induction l using List.reverseRecOn with
  | nil => intro q hq; simp at hq
  | append_singleton l p ih =>
    have hzl : ∀ q ∈ l, xm ≤ q.x → q.x ≠ 0 :=
      fun q hq => hz q (List.mem_append_left _ hq)
    have ih' := ih hzl
    unfold findBefore at ih' ⊢
    rw [List.foldl_append, List.foldl_cons, List.foldl_nil]
    rcases hr : l.foldl (updBefore xm) none with _ | b
    · rw [hr] at ih'
      by_cases hp : xm ≤ p.x
      · simp only [updBefore, if_pos hp, isBeforeRes]
        refine ⟨hp, by simp, ?_⟩
        intro q hq hqge
        rcases List.mem_append.mp hq with hql | hqp
        · exact absurd hqge (ih' q hql)
        · rw [List.mem_singleton.mp hqp]
      · simp only [updBefore, if_neg hp, isBeforeRes]
        intro q hq
        rcases List.mem_append.mp hq with hql | hqp
        · exact ih' q hql
        · rw [List.mem_singleton.mp hqp]; exact hp
    · rw [hr] at ih'
      obtain ⟨hbx, hbmem, hbmin⟩ := ih'
      have hb0 : ¬ b.x = 0 := hz b (List.mem_append_left _ hbmem) hbx
      by_cases hp : xm ≤ p.x
      · by_cases hlt : p.x < b.x
        · simp only [updBefore, if_pos hp, if_pos (Or.inr hlt), isBeforeRes]
          refine ⟨hp, by simp, ?_⟩
          intro q hq hqge
          rcases List.mem_append.mp hq with hql | hqp
          · exact le_of_lt (lt_of_lt_of_le hlt (hbmin q hql hqge))
          · rw [List.mem_singleton.mp hqp]
        · have hcond : ¬ (b.x = 0 ∨ p.x < b.x) := by
            intro h; rcases h with h | h
            · exact hb0 h
            · exact hlt h
          simp only [updBefore, if_pos hp, if_neg hcond, isBeforeRes]
          refine ⟨hbx, List.mem_append_left _ hbmem, ?_⟩
          intro q hq hqge
          rcases List.mem_append.mp hq with hql | hqp
          · exact hbmin q hql hqge
          · rw [List.mem_singleton.mp hqp]; exact le_of_not_lt hlt
      · simp only [updBefore, if_neg hp, isBeforeRes]
        refine ⟨hbx, List.mem_append_left _ hbmem, ?_⟩
        intro q hq hqge
        rcases List.mem_append.mp hq with hql | hqp
        · exact hbmin q hql hqge
        · exact absurd (List.mem_singleton.mp hqp ▸ hqge) hp

theorem findBefore_weak (xm : ℚ) (l : List Sample) :
    isBeforeResW xm l (findBefore l xm) := by
  induction l using List.reverseRecOn with
  | nil => intro q hq; simp at hq
  | append_singleton l p ih =>
    unfold findBefore at ih ⊢
    rw [List.foldl_append, List.foldl_cons, List.foldl_nil]
    rcases hr : l.foldl (updBefore xm) none with _ | b
    · rw [hr] at ih
      by_cases hp : xm ≤ p.x
      · simp only [updBefore, if_pos hp, isBeforeResW]
        exact ⟨hp, by simp⟩
      · simp only [updBefore, if_neg hp, isBeforeResW]
        intro q hq
        rcases List.mem_append.mp hq with hql | hqp
        · exact ih q hql
        · rw [List.mem_singleton.mp hqp]; exact hp
    · rw [hr] at ih
      obtain ⟨hbx, hbmem⟩ := ih
      by_cases hp : xm ≤ p.x
      · by_cases hcond : b.x = 0 ∨ p.x < b.x
        · simp only [updBefore, if_pos hp, if_pos hcond, isBeforeResW]
          exact ⟨hp, by simp⟩
        · simp only [updBefore, if_pos hp, if_neg hcond, isBeforeResW]
          exact ⟨hbx, List.mem_append_left _ hbmem⟩
      · simp only [updBefore, if_neg hp, isBeforeResW]
        exact ⟨hbx, List.mem_append_left _ hbmem⟩

/-- Two members of a list with pairwise-distinct distances that share a
distance are the same member. -/
theorem pairwise_key_inj {l : List Sample}
    (hd : l.Pairwise (fun p q => p.x ≠ q.x)) {a b : Sample}
    (ha : a ∈ l) (hb : b ∈ l) (hxy : a.x = b.x) : a = b := by
  induction l with
  | nil => simp at ha
  | cons c t ih =>
    rcases List.pairwise_cons.mp hd with ⟨hc, ht⟩
    rcases List.mem_cons.mp ha with rfl | hat
    · rcases List.mem_cons.mp hb with rfl | hbt
      · rfl
      · exact absurd hxy (hc b hbt)
    · rcases List.mem_cons.mp hb with rfl | hbt
      · exact absurd hxy.symm (hc a hat)
      · exact ih ht hat hbt

/-- Interpolation is exact at every sample point of a path with
pairwise-distinct distances. -/
theorem interpOn_exact (path : List Sample) (val : Sample → ℚ) (s : Sample)
    (hs : s ∈ path) (hd : path.Pairwise (fun p q => p.x ≠ q.x)) :
    interpOn path s.x val = some (val s) := by
  have has := findAfter_spec s.x path
  rcases ha : findAfter path s.x with _ | a
  · rw [ha] at has; exact absurd (le_refl s.x) (has s hs)
  rw [ha] at has
  obtain ⟨hax, hamem, hamax⟩ := has
  have haeq : a.x = s.x := le_antisymm hax (hamax s hs (le_refl _))
  have haa : a = s := pairwise_key_inj hd hamem hs haeq
  have hbw := findBefore_weak s.x path
  rcases hb : findBefore path s.x with _ | b
  · rw [hb] at hbw; exact absurd (le_refl s.x) (hbw s hs)
  rw [hb] at hbw
  obtain ⟨hbx, hbmem⟩ := hbw
  unfold interpOn
  rw [hb, ha]
  dsimp only
  by_cases hbe : b.x = a.x
  · rw [if_neg (by simpa using hbe)]
    have : b = s := pairwise_key_inj hd hbmem hs (by rw [hbe, haeq])
    rw [this]
  · rw [if_pos hbe, haa]
    congr 1
    simp [sub_self, zero_div]

/-- C3: the interpolator of `h_interp` and `H_surf` (shared skeleton
`interpOn`): (1) between bounding samples of distinct distances it returns
the exact linear blend `v1 + (v2 − v1)·(d − d1)/(d2 − d1)`, (2) it is exact at
every sample point, (3) coinciding bounds return the before-sample value with
no division, and (4) a single bound returns that bound's value.  Hypotheses
(1)–(2) assume the data-model invariants: distances are nonnegative and
pairwise distinct. -/
theorem C3_interpolation (path : List Sample) (d : ℚ) (val : Sample → ℚ)
    (hnn : ∀ q ∈ path, 0 ≤ q.x)
    (hd : path.Pairwise (fun p q => p.x ≠ q.x)) :
    (∀ a b, a ∈ path → b ∈ path → a.x ≤ d → d ≤ b.x → a.x < b.x →
      (∀ q ∈ path, q.x ≤ d → q.x ≤ a.x) → (∀ q ∈ path, d ≤ q.x → b.x ≤ q.x) →
      interpOn path d val =
        some (val a + (val b - val a) * ((d - a.x) / (b.x - a.x)))) ∧
    (∀ s ∈ path, interpOn path s.x val = some (val s)) ∧
    (∀ b a, findBefore path d = some b → findAfter path d = some a → b.x = a.x →
      interpOn path d val = some (val b)) ∧
    (∀ b, findBefore path d = some b → findAfter path d = none →
      interpOn path d val = some (val b)) ∧
    (∀ a, findAfter path d = some a → findBefore path d = none →
      interpOn path d val = some (val a)) := by
  refine ⟨?_, ?_, ?_, ?_, ?_⟩
  · intro a b hamem hbmem hax hbx hab hamax hbmin
    -- the bounds are strict: a.x < d < b.x
    have had : a.x < d := by
      rcases lt_or_eq_of_le hax with h | h
      · exact h
      · exact absurd (hbmin a hamem h.symm.le) (not_le.mpr hab)
    have hdb : d < b.x := by
      rcases lt_or_eq_of_le hbx with h | h
      · exact h
      · exact absurd (hamax b hbmem h.symm.le) (not_le.mpr hab)
    have hdpos : 0 < d := lt_of_le_of_lt (hnn a hamem) had
    have hz : ∀ q ∈ path, d ≤ q.x → q.x ≠ 0 :=
      fun q _ hle => ne_of_gt (lt_of_lt_of_le hdpos hle)
    have hbs := findBefore_spec d path hz
    rcases hbres : findBefore path d with _ | b2
    · rw [hbres] at hbs; exact absurd (le_of_lt hdb) (hbs b hbmem)
    rw [hbres] at hbs
    obtain ⟨hb2x, hb2mem, hb2min⟩ := hbs
    have has := findAfter_spec d path
    rcases hares : findAfter path d with _ | a2
    · rw [hares] at has; exact absurd (le_of_lt had) (has a hamem)
    rw [hares] at has
    obtain ⟨ha2x, ha2mem, ha2max⟩ := has
    have hb2 : b2 = b :=
      pairwise_key_inj hd hb2mem hbmem
        (le_antisymm (hb2min b hbmem (le_of_lt hdb)) (hbmin b2 hb2mem hb2x))
    have ha2 : a2 = a :=
      pairwise_key_inj hd ha2mem hamem
        (le_antisymm (hamax a2 ha2mem ha2x) (ha2max a hamem (le_of_lt had)))
    unfold interpOn
    rw [hbres, hares, hb2, ha2]
    dsimp only
    rw [if_pos (ne_of_gt hab)]
    congr 1
    ring
  · intro s hs; exact interpOn_exact path val s hs hd
  · intro b a hb hares hbe
    unfold interpOn
    rw [hb, hares]
    dsimp only
    rw [if_neg (by simpa using hbe)]
  · intro b hb hares
    unfold interpOn
    rw [hb, hares]
  · intro a hares hb
    unfold interpOn
    rw [hb, hares]

/-- C3 witness: on the §8 sample set with target distance 100 the bounding
samples are `(50, h=1)` and `(200, h=5)` and the depth interpolant is
`1 + (5 − 1)·(100 − 50)/(200 − 50) = 7/3`. -/
theorem C3_interpolation_witness :
    interpOn path8 100 (fun s => s.h) = some (7/3) ∧
    interpOn path8 50 (fun s => s.h) = some 1 := by
  have hmem8 : ∀ q ∈ path8,
      q = ⟨200, 5, 1, 8⟩ ∨ q = ⟨50, 1, 9/10, 5⟩ ∨ q = (⟨0, 0, 0, 0⟩ : Sample) := by
    intro q hq
    simpa [path8] using hq
  have hnn : ∀ q ∈ path8, 0 ≤ q.x := by
    intro q hq
    rcases hmem8 q hq with rfl | rfl | rfl <;> norm_num
  have hd : path8.Pairwise (fun p q => p.x ≠ q.x) := by
    norm_num [path8, List.pairwise_cons]
  obtain ⟨hform, hexact, -, -, -⟩ :=
    C3_interpolation path8 100 (fun s => s.h) hnn hd
  constructor
  · have := hform ⟨50, 1, 9/10, 5⟩ ⟨200, 5, 1, 8⟩ (by simp [path8]) (by simp [path8])
      (by norm_num) (by norm_num) (by norm_num)
      (by intro q hq; rcases hmem8 q hq with rfl | rfl | rfl <;> norm_num)
      (by intro q hq; rcases hmem8 q hq with rfl | rfl | rfl <;> norm_num)
    rw [this]; norm_num
  · have := (C3_interpolation path8 50 (fun s => s.h) hnn hd).2.1
      ⟨50, 1, 9/10, 5⟩ (by simp [path8])
    simpa using this

/-- The raw bathymetry list (lines 83–138): 21 evenly spaced points over
`[0, 152]` with interpolated depth (or the 3 % slope + tide fallback when the
path is empty), plus the synthetic beach anchor `(-6, -1.5)`. -/
def bathyRaw (path : List Sample) (tide : ℚ) : List (ℚ × ℚ) :=
  if path ≠ [] then
    ((List.range 21).map
      (fun i : ℕ => ((i : ℚ) / 20 * 152, h_interp path ((i : ℚ) / 20 * 152))))
      ++ [(-6, -3/2)]
  else
    ((List.range 21).map
      (fun i : ℕ => ((i : ℚ) / 20 * 152, max 0 ((i : ℚ) / 20 * 152 * (3/100) + tide))))
      ++ [(-6, -3/2)]

/-- Line 141: the bathymetry list sorted by descending distance. -/
def bathymetryPoints (path : List Sample) (tide : ℚ) : List (ℚ × ℚ) :=
  sortDescBy Prod.fst (bathyRaw path tide)

/-- One row of the visualization data (lines 176–182); `waterSurfaceY` is the
constant 0 and is omitted. -/
structure VizPoint where
  x : ℚ
  bathymetryY : ℚ
  waveCrestY : Option ℚ
  waveTroughY : Option ℚ
deriving DecidableEq, Repr

/-- Lines 186–233: a bathymetry point decorated with the interpolated wave
envelope (crest `−H/2` above water, trough `+H/2` below, both absent unless
`H > 0`). -/
def mkViz (path : List Sample) (p : ℚ × ℚ) : VizPoint :=
  let Hs := HEnv path p.1
  ⟨p.1, p.2,
   if 0 < Hs then some (-(Hs / 2)) else none,
   if 0 < Hs then some (Hs / 2) else none⟩

/-- Lines 240–245: the sample nearest to the shore (`reduce` over the path
seeded with its first element), absent for an empty path. -/
def nearestSample (path : List Sample) : Option Sample :=
  match path with
  | [] => none
  | p :: _ => some (path.foldl (fun c q => if |q.x| < |c.x| then q else c) p)

/-- Lines 248–255: the synthesized shore point at metres level. -/
def shoreVizM (path : List Sample) : VizPoint :=
  let Hs := jsOrO ((nearestSample path).map (fun s => s.H)) 0
  ⟨0, 0,
   if 0 < Hs then some (-(Hs / 2)) else none,
   if 0 < Hs then some (Hs / 2) else none⟩

/-- Lines 186–233: the decorated bathymetry rows, in bathymetry order. -/
def vizBase (path : List Sample) (tide : ℚ) : List VizPoint :=
  (bathymetryPoints path tide).map (mkViz path)

/-- Lines 236–256: the rows with the synthesized shore point appended when no
row with `|x| < 0.1` exists. -/
def vizBase2 (path : List Sample) (tide : ℚ) : List VizPoint :=
  if (vizBase path tide).any (fun d => decide (|d.x| < 1/10)) then
    vizBase path tide
  else vizBase path tide ++ [shoreVizM path]

/-- Line 259: the metres-level visualization list, sorted by descending
distance. -/
def vizMeters (path : List Sample) (tide : ℚ) : List VizPoint :=
  sortDescBy (fun v => v.x) (vizBase2 path tide)

/-- Lines 269–275: display projection (identity in metric mode) followed by
the `MIN_DISTANCE ≤ x ≤ MAX_DISTANCE` filter. -/
def visualizationData (path : List Sample) (tide : ℚ) : List VizPoint :=
  (vizMeters path tide).filter
    (fun d => decide (-6 ≤ d.x) && decide (d.x ≤ 152))

/-- Lines 282–295: the display-level shore point — either the first
visualization row with `|x| < 0.01`, or a fresh `x = 0` row copying the
envelope of the row nearest to shore. -/
def shorePointD (vd : List VizPoint) : VizPoint :=
  match vd.find? (fun d => decide (|d.x| < 1/100)) with
  | some d => d
  | none =>
    match vd with
    | [] => ⟨0, 0, none, none⟩
    | v :: _ =>
      let n := vd.foldl (fun c d => if |d.x| < |c.x| then d else c) v
      ⟨0, 0, n.waveCrestY, n.waveTroughY⟩

/-- Line 300: bathymetry rows for display span `0 ≤ x ≤ 152`. -/
def bathymetryPointsDisplay (path : List Sample) (tide : ℚ) : List VizPoint :=
  (visualizationData path tide).filter
    (fun d => decide (0 ≤ d.x) && decide (d.x ≤ 152))

/-- Lines 302–306: the bathymetry rows with the display shore point appended
when no row with `|x| < 0.01` exists. -/
def bathyL2 (path : List Sample) (tide : ℚ) : List VizPoint :=
  if (bathymetryPointsDisplay path tide).any (fun d => decide (|d.x| < 1/100)) then
    bathymetryPointsDisplay path tide
  else bathymetryPointsDisplay path tide ++ [shorePointD (visualizationData path tide)]

/-- Lines 300–310: the bathymetry sequence handed to the renderer, sorted by
ascending distance. -/
def bathymetryData (path : List Sample) (tide : ℚ) : List VizPoint :=
  sortAscBy (fun v => v.x) (bathyL2 path tide)

/-- Lines 313–319: envelope rows — up to the display breaking distance when
it is positive, up to 152 otherwise. -/
def envFiltered (path : List Sample) (tide : ℚ) (apiDist : Option ℚ) :
    List VizPoint :=
  (visualizationData path tide).filter
    (fun d =>
      if breakingDistDisplay path apiDist ≤ 0 then
        decide (0 ≤ d.x) && decide (d.x ≤ 152)
      else decide (0 ≤ d.x) && decide (d.x ≤ breakingDistDisplay path apiDist))

/-- Lines 322–325: the envelope rows with the display shore point appended
when no row with `|x| < 0.01` exists. -/
def envL2 (path : List Sample) (tide : ℚ) (apiDist : Option ℚ) : List VizPoint :=
  if (envFiltered path tide apiDist).any (fun d => decide (|d.x| < 1/100)) then
    envFiltered path tide apiDist
  else envFiltered path tide apiDist ++ [shorePointD (visualizationData path tide)]

/-- Lines 313–327: the wave-envelope sequence handed to the renderer, sorted
by ascending distance. -/
def waveEnvelopeData (path : List Sample) (tide : ℚ) (apiDist : Option ℚ) :
    List VizPoint :=
  sortAscBy (fun v => v.x) (envL2 path tide apiDist)

@[simp] theorem mkViz_x (path : List Sample) (p : ℚ × ℚ) :
    (mkViz path p).x = p.1 := rfl

@[simp] theorem shoreVizM_x (path : List Sample) : (shoreVizM path).x = 0 := rfl

/-- Every grid abscissa `i/20·152`, `i ≤ 20`, occurs in the raw bathymetry. -/
theorem bathyRaw_mem_grid (path : List Sample) (tide : ℚ) (i : ℕ) (hi : i < 21) :
    ∃ y : ℚ, ((i : ℚ) / 20 * 152, y) ∈ bathyRaw path tide := by
  unfold bathyRaw
  by_cases hp : path ≠ []
  · rw [if_pos hp]
    refine ⟨h_interp path ((i : ℚ) / 20 * 152), List.mem_append_left _ ?_⟩
    exact List.mem_map_of_mem
      (fun j : ℕ => ((j : ℚ) / 20 * 152, h_interp path ((j : ℚ) / 20 * 152)))
      (List.mem_range.mpr hi)
  · rw [if_neg hp]
    refine ⟨max 0 ((i : ℚ) / 20 * 152 * (3/100) + tide), List.mem_append_left _ ?_⟩
    exact List.mem_map_of_mem
      (fun j : ℕ => ((j : ℚ) / 20 * 152, max 0 ((j : ℚ) / 20 * 152 * (3/100) + tide)))
      (List.mem_range.mpr hi)

/-- Raw bathymetry abscissas are the beach anchor −6 or lie in `[0, 152]`. -/
theorem bathyRaw_x (path : List Sample) (tide : ℚ) :
    ∀ p ∈ bathyRaw path tide, p.1 = -6 ∨ (0 ≤ p.1 ∧ p.1 ≤ 152) := by
  intro p hp
  unfold bathyRaw at hp
  have hgrid : ∀ i : ℕ, i < 21 → 0 ≤ (i : ℚ) / 20 * 152 ∧ (i : ℚ) / 20 * 152 ≤ 152 := by
    intro i hi
    have hle : (i : ℚ) ≤ 20 := by exact_mod_cast Nat.lt_succ_iff.mp hi
    have h0 : (0 : ℚ) ≤ (i : ℚ) := by positivity
    constructor
    · positivity
    · have : (i : ℚ) / 20 * 152 = (i : ℚ) * (38/5) := by ring
      rw [this]
      linarith
  by_cases hne : path ≠ []
  · rw [if_pos hne] at hp
    rcases List.mem_append.mp hp with hmap | hsing
    · obtain ⟨i, hi, rfl⟩ := List.mem_map.mp hmap
      exact Or.inr (hgrid i (List.mem_range.mp hi))
    · rw [List.mem_singleton.mp hsing]
      exact Or.inl rfl
  · rw [if_neg hne] at hp
    rcases List.mem_append.mp hp with hmap | hsing
    · obtain ⟨i, hi, rfl⟩ := List.mem_map.mp hmap
      exact Or.inr (hgrid i (List.mem_range.mp hi))
    · rw [List.mem_singleton.mp hsing]
      exact Or.inl rfl

/-- Every raw bathymetry point survives (decorated) into the metres-level
visualization list. -/
theorem mem_vizMeters_of_bathyRaw (path : List Sample) (tide : ℚ)
    (p : ℚ × ℚ) (hp : p ∈ bathyRaw path tide) :
    mkViz path p ∈ vizMeters path tide := by
  have hbase : mkViz path p ∈ vizBase path tide :=
    List.mem_map_of_mem _ ((sortDescBy_perm Prod.fst _).mem_iff.mpr hp)
  have hbase2 : mkViz path p ∈ vizBase2 path tide := by
    unfold vizBase2
    split
    · exact hbase
    · exact List.mem_append_left _ hbase
  exact ((sortDescBy_perm (fun v : VizPoint => v.x) (vizBase2 path tide)).mem_iff).mpr hbase2

/-- Visualization abscissas are −6 or lie in `[0, 152]`. -/
theorem vizMeters_x (path : List Sample) (tide : ℚ) :
    ∀ v ∈ vizMeters path tide, v.x = -6 ∨ (0 ≤ v.x ∧ v.x ≤ 152) := by
  intro v hv
  unfold vizMeters at hv
  have hv2 : v ∈ vizBase2 path tide :=
    ((sortDescBy_perm (fun v : VizPoint => v.x) (vizBase2 path tide)).mem_iff).mp hv
  have hbase : v ∈ vizBase path tide ∨ v = shoreVizM path := by
    unfold vizBase2 at hv2
    by_cases h : (vizBase path tide).any (fun d => decide (|d.x| < 1/10))
    · rw [if_pos h] at hv2; exact Or.inl hv2
    · rw [if_neg h] at hv2
      rcases List.mem_append.mp hv2 with h1 | h2
      · exact Or.inl h1
      · exact Or.inr (List.mem_singleton.mp h2)
  rcases hbase with h1 | rfl
  · obtain ⟨p, hpmem, rfl⟩ := List.mem_map.mp h1
    have hp : p ∈ bathyRaw path tide := (sortDescBy_perm Prod.fst _).mem_iff.mp hpmem
    simpa using bathyRaw_x path tide p hp
  · right; norm_num

/-- A raw bathymetry point within the display window survives into the
display visualization list. -/
theorem mem_vizData_of_bathyRaw (path : List Sample) (tide : ℚ)
    (p : ℚ × ℚ) (hp : p ∈ bathyRaw path tide)
    (h1 : -6 ≤ p.1) (h2 : p.1 ≤ 152) :
    mkViz path p ∈ visualizationData path tide := by
  unfold visualizationData
  refine List.mem_filter.mpr ⟨mem_vizMeters_of_bathyRaw path tide p hp, ?_⟩
  simp only [mkViz_x, Bool.and_eq_true, decide_eq_true_eq]
  exact ⟨h1, h2⟩

/-- The shore abscissa 0 always occurs in the display visualization list. -/
theorem vizData_zero_mem (path : List Sample) (tide : ℚ) :
    ∃ v ∈ visualizationData path tide, v.x = 0 := by
  obtain ⟨y, hy⟩ := bathyRaw_mem_grid path tide 0 (by norm_num)
  have h0 : ((0 : ℕ) : ℚ) / 20 * 152 = 0 := by norm_num
  rw [h0] at hy
  exact ⟨mkViz path (0, y),
    mem_vizData_of_bathyRaw path tide (0, y) hy (by norm_num) (by norm_num), rfl⟩

/-- The offshore-extent abscissa 152 always occurs in the display
visualization list. -/
theorem vizData_max_mem (path : List Sample) (tide : ℚ) :
    ∃ v ∈ visualizationData path tide, v.x = 152 := by
  obtain ⟨y, hy⟩ := bathyRaw_mem_grid path tide 20 (by norm_num)
  have h20 : ((20 : ℕ) : ℚ) / 20 * 152 = 152 := by norm_num
  rw [h20] at hy
  exact ⟨mkViz path (152, y),
    mem_vizData_of_bathyRaw path tide (152, y) hy (by norm_num) (by norm_num), rfl⟩

/-- Display visualization abscissas lie in `[−6, 152]` and are −6 or
nonnegative. -/
theorem vizData_x (path : List Sample) (tide : ℚ) :
    ∀ v ∈ visualizationData path tide,
      (-6 ≤ v.x ∧ v.x ≤ 152) ∧ (v.x = -6 ∨ 0 ≤ v.x) := by
  intro v hv
  obtain ⟨hmem, hfilt⟩ := List.mem_filter.mp hv
  rw [Bool.and_eq_true, decide_eq_true_eq, decide_eq_true_eq] at hfilt
  refine ⟨hfilt, ?_⟩
  rcases vizMeters_x path tide v hmem with h | h
  · exact Or.inl h
  · exact Or.inr h.1

/-- The shore abscissa 0 survives the bathymetry display filter. -/
theorem bathyDisplay_zero_mem (path : List Sample) (tide : ℚ) :
    ∃ v ∈ bathymetryPointsDisplay path tide, v.x = 0 := by
  obtain ⟨v, hv, hvx⟩ := vizData_zero_mem path tide
  refine ⟨v, List.mem_filter.mpr ⟨hv, ?_⟩, hvx⟩
  simp [hvx]

/-- The bathymetry shore-point append never fires: a `|x| < 0.01` row is
always present. -/
theorem bathyL2_eq (path : List Sample) (tide : ℚ) :
    bathyL2 path tide = bathymetryPointsDisplay path tide := by
  unfold bathyL2
  obtain ⟨v, hv, hvx⟩ := bathyDisplay_zero_mem path tide
  rw [if_pos]
  exact List.any_eq_true.mpr ⟨v, hv, by simp [hvx]⟩

/-- The shore abscissa 0 survives the envelope filter. -/
theorem envFiltered_zero_mem (path : List Sample) (tide : ℚ)
    (apiDist : Option ℚ) :
    ∃ v ∈ envFiltered path tide apiDist, v.x = 0 := by
  obtain ⟨v, hv, hvx⟩ := vizData_zero_mem path tide
  refine ⟨v, List.mem_filter.mpr ⟨hv, ?_⟩, hvx⟩
  by_cases hb : breakingDistDisplay path apiDist ≤ 0
  · simp [hb, hvx]
  · simp only [if_neg hb, Bool.and_eq_true, decide_eq_true_eq, hvx]
    exact ⟨le_refl 0, (not_le.mp hb).le⟩

/-- The envelope shore-point append never fires either. -/
theorem envL2_eq (path : List Sample) (tide : ℚ) (apiDist : Option ℚ) :
    envL2 path tide apiDist = envFiltered path tide apiDist := by
  unfold envL2
  obtain ⟨v, hv, hvx⟩ := envFiltered_zero_mem path tide apiDist
  rw [if_pos]
  exact List.any_eq_true.mpr ⟨v, hv, by simp [hvx]⟩

/-- Membership in the rendered envelope, unfolded down to the filter. -/
theorem mem_waveEnvelopeData_iff (path : List Sample) (tide : ℚ)
    (apiDist : Option ℚ) (v : VizPoint) :
    v ∈ waveEnvelopeData path tide apiDist ↔ v ∈ envFiltered path tide apiDist := by
  unfold waveEnvelopeData
  rw [envL2_eq]
  exact (sortAscBy_perm (fun v : VizPoint => v.x) (envFiltered path tide apiDist)).mem_iff

/-- Membership in the rendered bathymetry, unfolded down to the filter. -/
theorem mem_bathymetryData_iff (path : List Sample) (tide : ℚ) (v : VizPoint) :
    v ∈ bathymetryData path tide ↔ v ∈ bathymetryPointsDisplay path tide := by
  unfold bathymetryData
  rw [bathyL2_eq]
  exact (sortAscBy_perm (fun v : VizPoint => v.x) (bathymetryPointsDisplay path tide)).mem_iff

/-- C6 (amended): the wave-envelope domain is a subset of `[0, 152]` and, when
the effective display breaking distance is positive, of
`[0, breakingDistDisplay]`; the bathymetry domain is a subset of `[0, 152]`
containing both endpoints 0 and 152; and every envelope abscissa occurs in
the bathymetry domain. -/
theorem C6_domains (path : List Sample) (tide : ℚ) (apiDist : Option ℚ) :
    (∀ v ∈ waveEnvelopeData path tide apiDist,
        0 ≤ v.x ∧ v.x ≤ 152 ∧
        (0 < breakingDistDisplay path apiDist →
          v.x ≤ breakingDistDisplay path apiDist)) ∧
    (∀ v ∈ bathymetryData path tide, 0 ≤ v.x ∧ v.x ≤ 152) ∧
    (∃ v ∈ bathymetryData path tide, v.x = 0) ∧
    (∃ v ∈ bathymetryData path tide, v.x = 152) ∧
    (∀ v ∈ waveEnvelopeData path tide apiDist,
        ∃ w ∈ bathymetryData path tide, w.x = v.x) := by
  have envMem : ∀ v ∈ waveEnvelopeData path tide apiDist,
      v ∈ visualizationData path tide ∧ 0 ≤ v.x ∧
      (0 < breakingDistDisplay path apiDist →
        v.x ≤ breakingDistDisplay path apiDist) := by
    intro v hv
    obtain ⟨hmem, hfilt⟩ :=
      List.mem_filter.mp ((mem_waveEnvelopeData_iff path tide apiDist v).mp hv)
    by_cases hb : breakingDistDisplay path apiDist ≤ 0
    · rw [if_pos hb, Bool.and_eq_true, decide_eq_true_eq, decide_eq_true_eq] at hfilt
      exact ⟨hmem, hfilt.1, fun hpos => absurd hpos (not_lt.mpr hb)⟩
    · rw [if_neg hb, Bool.and_eq_true, decide_eq_true_eq, decide_eq_true_eq] at hfilt
      exact ⟨hmem, hfilt.1, fun _ => hfilt.2⟩
  refine ⟨?_, ?_, ?_, ?_, ?_⟩
  · intro v hv
    obtain ⟨hmem, h0, hbX⟩ := envMem v hv
    exact ⟨h0, ((vizData_x path tide v hmem).1).2, hbX⟩
  · intro v hv
    obtain ⟨-, hfilt⟩ :=
      List.mem_filter.mp ((mem_bathymetryData_iff path tide v).mp hv)
    rw [Bool.and_eq_true, decide_eq_true_eq, decide_eq_true_eq] at hfilt
    exact hfilt
  · obtain ⟨v, hv, hvx⟩ := bathyDisplay_zero_mem path tide
    exact ⟨v, (mem_bathymetryData_iff path tide v).mpr hv, hvx⟩
  · obtain ⟨v, hv, hvx⟩ := vizData_max_mem path tide
    refine ⟨v, (mem_bathymetryData_iff path tide v).mpr
      (List.mem_filter.mpr ⟨hv, by simp [hvx]⟩), hvx⟩
  · intro v hv
    obtain ⟨hmem, h0, -⟩ := envMem v hv
    have h152 : v.x ≤ 152 := ((vizData_x path tide v hmem).1).2
    refine ⟨v, (mem_bathymetryData_iff path tide v).mpr
      (List.mem_filter.mpr ⟨hmem, ?_⟩), rfl⟩
    simp only [Bool.and_eq_true, decide_eq_true_eq]
    exact ⟨h0, h152⟩

/-- C6 counterexample: on `path6` a breaking point exists (at distance 0),
yet the wave envelope extends to distance 152, far beyond the breaking
distance — the claimed inclusion of the envelope domain in
`[0, breakingDistance]` fails when a breaking point is detected at
distance 0 with no external fallback. -/
theorem C6_counterexample :
    breakingPointFromPhysics path6 = some ⟨0, 1, 9/10, 5⟩ ∧
    breakingDistM path6 none = 0 ∧
    ∃ v ∈ waveEnvelopeData path6 0 none, 100 < v.x := by
  have hdet : breakingPointFromPhysics path6 = some ⟨0, 1, 9/10, 5⟩ := by
    norm_num [breakingPointFromPhysics, path6, sortDescBy, qualB, cor, jsOr, List.find?]
  have hm : breakingDistM path6 none = 0 := by
    unfold breakingDistM
    rw [hdet]
    norm_num [jsOr, jsOrO]
  have hbX : breakingDistDisplay path6 none = 0 := by
    unfold breakingDistDisplay
    rw [hm]
    norm_num
  refine ⟨hdet, hm, ?_⟩
  obtain ⟨v, hv, hvx⟩ := vizData_max_mem path6 0
  refine ⟨v, ?_, by rw [hvx]; norm_num⟩
  apply (mem_waveEnvelopeData_iff path6 0 none v).mpr
  refine List.mem_filter.mpr ⟨hv, ?_⟩
  rw [hbX]
  simp [hvx]

/-- C6 witness: on the §8 sample set the effective display breaking distance
is the positive value 50 and every envelope abscissa is bounded by it. -/
theorem C6_domains_witness :
    (0 : ℚ) < breakingDistDisplay path8 none ∧
    ∀ v ∈ waveEnvelopeData path8 0 none, v.x ≤ breakingDistDisplay path8 none := by
  have hdet : breakingPointFromPhysics path8 = some ⟨50, 1, 9/10, 5⟩ := by
    norm_num [breakingPointFromPhysics, path8, sortDescBy, qualB, cor, jsOr, List.find?]
  have hm : breakingDistM path8 none = 50 := by
    unfold breakingDistM
    rw [hdet]
    norm_num [jsOr, jsOrO]
  have hbX : breakingDistDisplay path8 none = 50 := by
    unfold breakingDistDisplay
    rw [hm]
    norm_num
  constructor
  · rw [hbX]; norm_num
  · intro v hv
    exact ((C6_domains path8 0 none).1 v hv).2.2 (by rw [hbX]; norm_num)

/-- Line 353: `Math.max(...shoalingPath.map(p => p.x || 0))` (callers guard a
non-empty path; the empty case returns 0). -/
def maxDist (path : List Sample) : ℚ :=
  match path with
  | [] => 0
  | p :: t => t.foldl (fun m q => max m q.x) p.x

/-- Line 368: the mean `|| 10.0`-defaulted phase speed of the path. -/
def avgC (path : List Sample) : ℚ :=
  (path.map (fun p => cor p.c)).sum / path.length

/-- Lines 361–370: the fixed reference wavelength — phase speed at breaking
times period when a breaking point with truthy `c` is known, else the mean
phase speed times period, else the constant 50. -/
def wavelength_ref (path : List Sample) (period : ℚ) : ℚ :=
  match breakingPointFromPhysics path with
  | some b =>
      if b.c ≠ 0 then b.c * period
      else if path ≠ [] then avgC path * period else 50
  | none => if path ≠ [] then avgC path * period else 50

/-- Lines 375–379: the global phase offset, `π/2 − k_ref·breakingDistM` when
the reference wavelength is positive, 0 otherwise. -/
noncomputable def phi0 (L bd : ℚ) : ℝ :=
  if 0 < L then Real.pi / 2 - 2 * Real.pi / (L : ℝ) * (bd : ℝ) else 0

/-- Lines 422–433: surface elevation at abscissa `x` — amplitude `H/2` from
the loop interpolation, phase `k_ref·x + φ0` with the fixed
`k_ref = 2π/L`. -/
noncomputable def elevAt (path : List Sample) (L : ℚ) (f0 : ℝ) (x : ℚ) : ℝ :=
  -(((Hloop path x : ℚ) : ℝ) / 2) * Real.sin (2 * Real.pi / (L : ℝ) * (x : ℝ) + f0)

/-- Line 354: the loop start abscissa, `min(MAX_DISTANCE_M, maxXFromPath)`. -/
def startX (path : List Sample) : ℚ := min 152 (maxDist path)

/-- Line 355: the loop end abscissa, `max(0, breakingDistM)`. -/
def endX (path : List Sample) (apiDist : Option ℚ) : ℚ :=
  max 0 (breakingDistM path apiDist)

/-- Lines 382–383: the i-th loop abscissa `startX + (endX − startX)·i/600`. -/
def gridX (sx ex : ℚ) (i : ℕ) : ℚ := sx + (ex - sx) * i / 600

/-- Lines 381–450: the loop-generated points — each grid abscissa kept when
`0 ≤ x ≤ max(breakingXDisplay, 152)`, paired with its synthesized
elevation. -/
noncomputable def wavePts (path : List Sample) (period : ℚ)
    (apiDist : Option ℚ) : List (ℚ × ℝ) :=
  (List.range 601).filterMap (fun i =>
    if 0 ≤ gridX (startX path) (endX path apiDist) i ∧
       gridX (startX path) (endX path apiDist) i ≤
         max (breakingDistDisplay path apiDist) 152 then
      some (gridX (startX path) (endX path apiDist) i,
            elevAt path (wavelength_ref path period)
              (phi0 (wavelength_ref path period) (breakingDistM path apiDist))
              (gridX (startX path) (endX path apiDist) i))
    else none)

/-- Line 479: overwrite the `y` of the i-th point, keeping its `x`. -/
noncomputable def overwriteY (l : List (ℚ × ℝ)) (i : ℕ) (y : ℝ) :
    List (ℚ × ℝ) :=
  match l.get? i with
  | some p => l.set i (p.1, y)
  | none => l

/-- Lines 468–481: insert the forced crest point at the breaking abscissa, or
overwrite the first point within 0.1 of it. -/
noncomputable def forceCrest (l : List (ℚ × ℝ)) (bx : ℚ) (ybr : ℝ) :
    List (ℚ × ℝ) :=
  if l.any (fun p => decide (|p.1 - bx| < 1/10)) then
    overwriteY l (l.findIdx (fun p => decide (|p.1 - bx| < 1/10))) ybr
  else l ++ [(bx, ybr)]

/-- Lines 455–462: the forced crest elevation
`−(H_break/2)·sin(π/2)` (`breakingH = bp.H || 0`). -/
noncomputable def ybreak (b : Sample) : ℝ :=
  -(((jsOr b.H 0 : ℚ) : ℝ) / 2) * Real.sin (Real.pi / 2)

/-- Lines 341–486: the full wave-surface sequence — empty for an empty path;
loop points with the forced crest and an ascending sort when a breaking point
was detected and `breakingDistM ≥ 0`; the raw (descending) loop points
otherwise. -/
noncomputable def waveShapeData (path : List Sample) (period : ℚ)
    (apiDist : Option ℚ) : List (ℚ × ℝ) :=
  if path = [] then []
  else
    match breakingPointFromPhysics path with
    | some b =>
        if 0 ≤ breakingDistM path apiDist then
          sortAscBy Prod.fst
            (forceCrest (wavePts path period apiDist)
              (breakingDistM path apiDist) (ybreak b))
        else wavePts path period apiDist
    | none => wavePts path period apiDist

/-- `|| 10.0`-defaulting never yields zero. -/
theorem cor_ne_zero (c : ℚ) : cor c ≠ 0 := by
  unfold cor jsOr
  split <;> norm_num
  assumption

/-- The `c` stored in a detected breaking point is never zero. -/
theorem breakingPoint_c_ne_zero (path : List Sample) (b : Sample)
    (hb : breakingPointFromPhysics path = some b) : b.c ≠ 0 := by
  unfold breakingPointFromPhysics at hb
  rcases hfind : (sortDescBy (fun p => p.x) path).find? qualB with _ | p
  · rw [hfind] at hb; exact absurd hb (by simp)
  · rw [hfind, Option.map_some'] at hb
    injection hb with hb
    rw [← hb]
    exact cor_ne_zero p.c

/-- Membership in the loop points, characterized. -/
theorem mem_wavePts (path : List Sample) (period : ℚ) (apiDist : Option ℚ)
    (q : ℚ × ℝ) :
    q ∈ wavePts path period apiDist ↔
    ∃ i ∈ List.range 601,
      (0 ≤ gridX (startX path) (endX path apiDist) i ∧
       gridX (startX path) (endX path apiDist) i ≤
         max (breakingDistDisplay path apiDist) 152) ∧
      q = (gridX (startX path) (endX path apiDist) i,
           elevAt path (wavelength_ref path period)
             (phi0 (wavelength_ref path period) (breakingDistM path apiDist))
             (gridX (startX path) (endX path apiDist) i)) := by
  unfold wavePts
  rw [List.mem_filterMap]
  constructor
  · rintro ⟨i, hi, hf⟩
    by_cases hcond : 0 ≤ gridX (startX path) (endX path apiDist) i ∧
        gridX (startX path) (endX path apiDist) i ≤
          max (breakingDistDisplay path apiDist) 152
    · rw [if_pos hcond] at hf
      injection hf with hf
      exact ⟨i, hi, hcond, hf.symm⟩
    · rw [if_neg hcond] at hf
      exact absurd hf (by simp)
  · rintro ⟨i, hi, hcond, rfl⟩
    exact ⟨i, hi, by rw [if_pos hcond]⟩

/-- Every point of the final wave surface is either a loop point (with the
fixed-wave-number elevation) or carries the forced crest elevation. -/
theorem waveShapeData_points (path : List Sample) (period : ℚ)
    (apiDist : Option ℚ) :
    ∀ q ∈ waveShapeData path period apiDist,
      q.2 = elevAt path (wavelength_ref path period)
              (phi0 (wavelength_ref path period) (breakingDistM path apiDist))
              q.1 ∨
      ∃ b, breakingPointFromPhysics path = some b ∧ q.2 = ybreak b := by
  intro q hq
  have hloop : q ∈ wavePts path period apiDist →
      q.2 = elevAt path (wavelength_ref path period)
              (phi0 (wavelength_ref path period) (breakingDistM path apiDist))
              q.1 := by
    intro hmem
    obtain ⟨i, -, -, rfl⟩ := (mem_wavePts path period apiDist q).mp hmem
    rfl
  unfold waveShapeData at hq
  by_cases hpath : path = []
  · rw [if_pos hpath] at hq; exact absurd hq (by simp)
  rw [if_neg hpath] at hq
  rcases hdet : breakingPointFromPhysics path with _ | b
  · rw [hdet] at hq
    dsimp only at hq
    exact Or.inl (hloop hq)
  · rw [hdet] at hq
    dsimp only at hq
    by_cases hbd : 0 ≤ breakingDistM path apiDist
    · rw [if_pos hbd] at hq
      have hq2 : q ∈ forceCrest (wavePts path period apiDist)
          (breakingDistM path apiDist) (ybreak b) :=
        (sortAscBy_perm Prod.fst _).mem_iff.mp hq
      unfold forceCrest at hq2
      by_cases hany : (wavePts path period apiDist).any
          (fun p => decide (|p.1 - breakingDistM path apiDist| < 1/10))
      · rw [if_pos hany] at hq2
        unfold overwriteY at hq2
        rcases hget : (wavePts path period apiDist).get?
            ((wavePts path period apiDist).findIdx
              (fun p => decide (|p.1 - breakingDistM path apiDist| < 1/10))) with _ | p
        · rw [hget] at hq2
          exact Or.inl (hloop hq2)
        · rw [hget] at hq2
          rcases List.mem_or_eq_of_mem_set hq2 with hmem | rfl
          · exact Or.inl (hloop hmem)
          · exact Or.inr ⟨b, rfl, rfl⟩
      · rw [if_neg hany] at hq2
        rcases List.mem_append.mp hq2 with hmem | hsing
        · exact Or.inl (hloop hmem)
        · rw [List.mem_singleton.mp hsing]
          exact Or.inr ⟨b, rfl, rfl⟩
    · rw [if_neg hbd] at hq
      exact Or.inl (hloop hq)

/-- C7: the reference wavelength is `phaseSpeedAtBreaking × period` when a
breaking point is known and the mean `|| 10`-defaulted phase speed × period
otherwise (for a non-empty path); and every wave-surface elevation is
synthesized with the single fixed wave number `2π/L_ref` (the only exception,
the forced breaking-point crest, uses the constant phase `π/2`). -/
theorem C7_reference_wavelength (path : List Sample) (period : ℚ)
    (apiDist : Option ℚ) :
    (∀ b, breakingPointFromPhysics path = some b →
        wavelength_ref path period = b.c * period) ∧
    (breakingPointFromPhysics path = none → path ≠ [] →
        wavelength_ref path period = avgC path * period) ∧
    (∀ q ∈ waveShapeData path period apiDist,
        q.2 = elevAt path (wavelength_ref path period)
                (phi0 (wavelength_ref path period) (breakingDistM path apiDist))
                q.1 ∨
        ∃ b, breakingPointFromPhysics path = some b ∧ q.2 = ybreak b) := by
  refine ⟨?_, ?_, waveShapeData_points path period apiDist⟩
  · intro b hb
    unfold wavelength_ref
    rw [hb]
    simp [breakingPoint_c_ne_zero path b hb]
  · intro hnone hne
    unfold wavelength_ref
    rw [hnone]
    simp [hne]

/-- C7 witness: on the §8 sample set (breaking at phase speed 5, period 11)
the reference wavelength is 55; on a one-sample set with no breaking point
(phase speed 8) it is the mean 8 × 11 = 88. -/
theorem C7_reference_wavelength_witness :
    wavelength_ref path8 11 = 55 ∧ wavelength_ref [⟨152, 10, 1, 8⟩] 11 = 88 := by
  constructor
  · have hdet : breakingPointFromPhysics path8 = some ⟨50, 1, 9/10, 5⟩ := by
      norm_num [breakingPointFromPhysics, path8, sortDescBy, qualB, cor, jsOr, List.find?]
    rw [(C7_reference_wavelength path8 11 none).1 _ hdet]
    norm_num
  · have hdet : breakingPointFromPhysics [⟨152, 10, 1, 8⟩] = none := by
      norm_num [breakingPointFromPhysics, sortDescBy, qualB, cor, jsOr, List.find?]
    rw [(C7_reference_wavelength [⟨152, 10, 1, 8⟩] 11 none).2.1 hdet (by simp)]
    norm_num [avgC, cor, jsOr]

/-- Replace the phase speed of a sample by an arbitrary function of the
sample, leaving distance, depth and height unchanged. -/
def setC (f : Sample → ℚ) (s : Sample) : Sample := ⟨s.x, s.h, s.H, f s⟩

@[simp] theorem setC_x (f : Sample → ℚ) (s : Sample) : (setC f s).x = s.x := rfl
@[simp] theorem setC_h (f : Sample → ℚ) (s : Sample) : (setC f s).h = s.h := rfl
@[simp] theorem setC_H (f : Sample → ℚ) (s : Sample) : (setC f s).H = s.H := rfl

theorem updBefore_map (f : Sample → ℚ) (xm : ℚ) (acc : Option Sample)
    (p : Sample) :
    updBefore xm (acc.map (setC f)) (setC f p) =
      (updBefore xm acc p).map (setC f) := by
  unfold updBefore
  cases acc with
  | none => simp only [Option.map_none', setC_x]; split <;> rfl
  | some b =>
    simp only [Option.map_some', setC_x]
    by_cases hp : xm ≤ p.x
    · rw [if_pos hp, if_pos hp]
      by_cases hc : b.x = 0 ∨ p.x < b.x
      · rw [if_pos hc, if_pos hc]; rfl
      · rw [if_neg hc, if_neg hc]; rfl
    · rw [if_neg hp, if_neg hp]; rfl

theorem updAfter_map (f : Sample → ℚ) (xm : ℚ) (acc : Option Sample)
    (p : Sample) :
    updAfter xm (acc.map (setC f)) (setC f p) =
      (updAfter xm acc p).map (setC f) := by
  unfold updAfter
  cases acc with
  | none => simp only [Option.map_none', setC_x]; split <;> rfl
  | some a =>
    simp only [Option.map_some', setC_x]
    by_cases hp : p.x ≤ xm
    · rw [if_pos hp, if_pos hp]
      by_cases hc : a.x < p.x
      · rw [if_pos hc, if_pos hc]; rfl
      · rw [if_neg hc, if_neg hc]; rfl
    · rw [if_neg hp, if_neg hp]; rfl

theorem findBefore_map (f : Sample → ℚ) (path : List Sample) (xm : ℚ) :
    findBefore (path.map (setC f)) xm = (findBefore path xm).map (setC f) := by
  unfold findBefore
  suffices h : ∀ acc : Option Sample,
      (path.map (setC f)).foldl (updBefore xm) (acc.map (setC f)) =
        (path.foldl (updBefore xm) acc).map (setC f) by
    exact h none
  induction path with
  | nil => intro acc; simp
  | cons p t ih =>
    intro acc
    rw [List.map_cons, List.foldl_cons, List.foldl_cons, updBefore_map]
    exact ih (updBefore xm acc p)

theorem findAfter_map (f : Sample → ℚ) (path : List Sample) (xm : ℚ) :
    findAfter (path.map (setC f)) xm = (findAfter path xm).map (setC f) := by
  unfold findAfter
  suffices h : ∀ acc : Option Sample,
      (path.map (setC f)).foldl (updAfter xm) (acc.map (setC f)) =
        (path.foldl (updAfter xm) acc).map (setC f) by
    exact h none
  induction path with
  | nil => intro acc; simp
  | cons p t ih =>
    intro acc
    rw [List.map_cons, List.foldl_cons, List.foldl_cons, updAfter_map]
    exact ih (updAfter xm acc p)

/-- Interpolation of any field unchanged by `setC` is unchanged by `setC`. -/
theorem interpOn_map (f : Sample → ℚ) (path : List Sample) (xm : ℚ)
    (val val' : Sample → ℚ) (hval : ∀ s, val (setC f s) = val' s) :
    interpOn (path.map (setC f)) xm val = interpOn path xm val' := by
  unfold interpOn
  rw [findBefore_map, findAfter_map]
  cases findBefore path xm with
  | none =>
    cases findAfter path xm with
    | none => rfl
    | some a => simp only [Option.map_none', Option.map_some', hval]
  | some b =>
    cases findAfter path xm with
    | none => simp only [Option.map_none', Option.map_some', hval]
    | some a =>
      simp only [Option.map_some', setC_x, hval]

theorem Hloop_map (f : Sample → ℚ) (path : List Sample) (xm : ℚ) :
    Hloop (path.map (setC f)) xm = Hloop path xm := by
  unfold Hloop
  rw [interpOn_map f path xm _ (fun s => s.H) (fun s => rfl)]
  by_cases hp : path = []
  · subst hp; rfl
  · rw [if_pos (by simpa using hp), if_pos (by simpa using hp)]

theorem orderedInsert_map (f : Sample → ℚ) (a : Sample) (l : List Sample) :
    (l.map (setC f)).orderedInsert (fun p q => q.x ≤ p.x) (setC f a) =
      (l.orderedInsert (fun p q => q.x ≤ p.x) a).map (setC f) := by
  induction l with
  | nil => rfl
  | cons b t ih =>
    simp only [List.map_cons, List.orderedInsert, setC_x]
    by_cases h : b.x ≤ a.x
    · rw [if_pos h, if_pos h]; rfl
    · rw [if_neg h, if_neg h, List.map_cons, ih]

theorem sortDescX_map (f : Sample → ℚ) (path : List Sample) :
    sortDescBy (fun p => p.x) (path.map (setC f)) =
      (sortDescBy (fun p => p.x) path).map (setC f) := by
  unfold sortDescBy
  induction path with
  | nil => rfl
  | cons p t ih =>
    simp only [List.map_cons, List.insertionSort]
    rw [ih, orderedInsert_map]

theorem qualB_map (f : Sample → ℚ) (s : Sample) : qualB (setC f s) = qualB s := rfl

/-- The breaking point detected on a phase-speed-modified path agrees with
the original in distance, depth and height (only its stored `c` differs). -/
theorem breakingPoint_map_rel (f : Sample → ℚ) (path : List Sample) :
    (breakingPointFromPhysics (path.map (setC f)) = none ∧
     breakingPointFromPhysics path = none) ∨
    (∃ b2 b, breakingPointFromPhysics (path.map (setC f)) = some b2 ∧
      breakingPointFromPhysics path = some b ∧
      b2.x = b.x ∧ b2.h = b.h ∧ b2.H = b.H) := by
  unfold breakingPointFromPhysics
  rw [sortDescX_map, List.find?_map]
  have hq : qualB ∘ setC f = qualB := funext (qualB_map f)
  rw [hq]
  cases hfind : (sortDescBy (fun p => p.x) path).find? qualB with
  | none => exact Or.inl ⟨rfl, rfl⟩
  | some p =>
    exact Or.inr ⟨_, _, rfl, rfl, rfl, rfl, rfl⟩

theorem maxDist_map (f : Sample → ℚ) (path : List Sample) :
    maxDist (path.map (setC f)) = maxDist path := by
  unfold maxDist
  cases path with
  | nil => rfl
  | cons p t =>
    simp only [List.map_cons, setC_x]
    suffices h : ∀ m : ℚ, (t.map (setC f)).foldl (fun m q => max m q.x) m =
        t.foldl (fun m q => max m q.x) m by
      exact h p.x
    induction t with
    | nil => intro m; rfl
    | cons q u ih =>
      intro m
      rw [List.map_cons, List.foldl_cons, List.foldl_cons, setC_x]
      exact ih (max m q.x)

theorem breakingDistM_map (f : Sample → ℚ) (path : List Sample)
    (apiDist : Option ℚ) :
    breakingDistM (path.map (setC f)) apiDist = breakingDistM path apiDist := by
  unfold breakingDistM
  rcases breakingPoint_map_rel f path with ⟨h1, h2⟩ | ⟨b2, b, h1, h2, hx, -, -⟩
  · rw [h1, h2]
  · rw [h1, h2]
    dsimp only
    rw [hx]

theorem breakingDistDisplay_map (f : Sample → ℚ) (path : List Sample)
    (apiDist : Option ℚ) :
    breakingDistDisplay (path.map (setC f)) apiDist =
      breakingDistDisplay path apiDist := by
  unfold breakingDistDisplay
  rw [breakingDistM_map]

/-- C9: the per-point interpolated phase speed never influences any surface
elevation — two runs whose sample sets differ only in phase speeds, but which
produce the same reference wavelength, synthesize identical wave-surface
sequences, and in particular identical elevations at every position. -/
theorem C9_phase_speed_noninterference (path : List Sample) (f : Sample → ℚ)
    (period : ℚ) (apiDist : Option ℚ)
    (hL : wavelength_ref (path.map (setC f)) period =
          wavelength_ref path period) :
    waveShapeData (path.map (setC f)) period apiDist =
      waveShapeData path period apiDist ∧
    ∀ x : ℚ, elevAt (path.map (setC f)) (wavelength_ref (path.map (setC f)) period)
        (phi0 (wavelength_ref (path.map (setC f)) period)
          (breakingDistM (path.map (setC f)) apiDist)) x =
      elevAt path (wavelength_ref path period)
        (phi0 (wavelength_ref path period) (breakingDistM path apiDist)) x := by
  have helev : ∀ x : ℚ,
      elevAt (path.map (setC f)) (wavelength_ref (path.map (setC f)) period)
        (phi0 (wavelength_ref (path.map (setC f)) period)
          (breakingDistM (path.map (setC f)) apiDist)) x =
      elevAt path (wavelength_ref path period)
        (phi0 (wavelength_ref path period) (breakingDistM path apiDist)) x := by
    intro x
    unfold elevAt
    rw [Hloop_map, hL, breakingDistM_map]
  have hpts : wavePts (path.map (setC f)) period apiDist =
      wavePts path period apiDist := by
    unfold wavePts
    apply List.filterMap_congr
    intro i _
    unfold startX endX
    rw [helev, maxDist_map, breakingDistM_map, breakingDistDisplay_map]
  refine ⟨?_, helev⟩
  unfold waveShapeData
  by_cases hpath : path = []
  · subst hpath; rfl
  have hpath2 : ¬ path.map (setC f) = [] := by simpa using hpath
  rw [if_neg hpath, if_neg hpath2]
  rcases breakingPoint_map_rel f path with ⟨h1, h2⟩ | ⟨b2, b, h1, h2, hx, -, hH⟩
  · rw [h1, h2]
    exact hpts
  · rw [h1, h2]
    dsimp only
    rw [breakingDistM_map]
    by_cases hbd : 0 ≤ breakingDistM path apiDist
    · rw [if_pos hbd, if_pos hbd, hpts]
      have hybr : ybreak b2 = ybreak b := by
        unfold ybreak
        rw [hH]
      rw [hybr]
    · rw [if_neg hbd, if_neg hbd, hpts]

/-- C9 witness: changing the phase speeds of the non-breaking samples of the
§8 set (8 → 999 and 0 → 999) leaves the reference wavelength at 55 and the
whole wave-surface sequence unchanged. -/
theorem C9_phase_speed_noninterference_witness :
    waveShapeData (path8.map (setC (fun s => if s.x = 50 then 5 else 999)))
        11 none =
      waveShapeData path8 11 none := by
  have hL : wavelength_ref
      (path8.map (setC (fun s => if s.x = 50 then 5 else 999))) 11 =
      wavelength_ref path8 11 := by
    have hmap : path8.map (setC (fun s => if s.x = 50 then 5 else 999)) =
        [⟨200, 5, 1, 999⟩, ⟨50, 1, 9/10, 5⟩, ⟨0, 0, 0, 999⟩] := by
      norm_num [path8, setC]
    rw [hmap]
    have h1 : wavelength_ref [(⟨200, 5, 1, 999⟩ : Sample), ⟨50, 1, 9/10, 5⟩,
        ⟨0, 0, 0, 999⟩] 11 = 55 := by
      norm_num [wavelength_ref, breakingPointFromPhysics, sortDescBy, qualB, cor,
        jsOr, List.find?]
    have h2 : wavelength_ref path8 11 = 55 := by
      norm_num [wavelength_ref, breakingPointFromPhysics, path8, sortDescBy, qualB,
        cor, jsOr, List.find?]
    rw [h1, h2]
  exact (C9_phase_speed_noninterference path8
    (fun s => if s.x = 50 then 5 else 999) 11 none hL).1

/-- C5 (amended): the bathymetry and wave-envelope sequences are always
sorted ascending by distance; the wave-surface sequence is sorted ascending
whenever a breaking point was detected and the effective breaking distance is
nonnegative (otherwise its sorting pass is skipped). -/
theorem C5_outputs_sorted (path : List Sample) (tide period : ℚ)
    (apiDist : Option ℚ) :
    (bathymetryData path tide).Sorted (fun p q => p.x ≤ q.x) ∧
    (waveEnvelopeData path tide apiDist).Sorted (fun p q => p.x ≤ q.x) ∧
    ((breakingPointFromPhysics path).isSome → 0 ≤ breakingDistM path apiDist →
      (waveShapeData path period apiDist).Sorted
        (fun p q : ℚ × ℝ => p.1 ≤ q.1)) := by
  refine ⟨sortAscBy_sorted _ _, sortAscBy_sorted _ _, ?_⟩
  intro hsome hbd
  unfold waveShapeData
  by_cases hpath : path = []
  · rw [if_pos hpath]; exact List.sorted_nil
  rw [if_neg hpath]
  rcases hdet : breakingPointFromPhysics path with _ | b
  · rw [hdet] at hsome; simp at hsome
  · dsimp only
    rw [if_pos hbd]
    exact sortAscBy_sorted _ _

/-- C5 witness: on the §8 sample set detection succeeds at distance 50 and
all three output sequences are sorted ascending. -/
theorem C5_outputs_sorted_witness :
    (bathymetryData path8 0).Sorted (fun p q => p.x ≤ q.x) ∧
    (waveEnvelopeData path8 0 none).Sorted (fun p q => p.x ≤ q.x) ∧
    (waveShapeData path8 11 none).Sorted (fun p q : ℚ × ℝ => p.1 ≤ q.1) := by
  have hdet : breakingPointFromPhysics path8 = some ⟨50, 1, 9/10, 5⟩ := by
    norm_num [breakingPointFromPhysics, path8, sortDescBy, qualB, cor, jsOr,
      List.find?]
  have hbm : breakingDistM path8 none = 50 := by
    unfold breakingDistM
    rw [hdet]
    norm_num [jsOr, jsOrO]
  obtain ⟨h1, h2, h3⟩ := C5_outputs_sorted path8 0 11 none
  exact ⟨h1, h2, h3 (by rw [hdet]; rfl) (by rw [hbm]; norm_num)⟩

/-- A one-sample path on which nothing breaks (ratio `1/10 < 0.78`). -/
def path5 : List Sample := [⟨100, 10, 1, 5⟩]

/-- C5 counterexample: when detection finds no breaking point, the sorting
pass of the wave surface is skipped and the sequence comes out in descending
generation order — its first two abscissas are 100 and 599/6. -/
theorem C5_counterexample :
    breakingPointFromPhysics path5 = none ∧
    ¬ (waveShapeData path5 11 none).Sorted (fun p q : ℚ × ℝ => p.1 ≤ q.1) := by
  have hdet : breakingPointFromPhysics path5 = none := by
    norm_num [breakingPointFromPhysics, path5, sortDescBy, qualB, cor, jsOr,
      List.find?]
  refine ⟨hdet, ?_⟩
  have hW : waveShapeData path5 11 none = wavePts path5 11 none := by
    unfold waveShapeData
    rw [if_neg (by norm_num [path5]), hdet]
  have hs : startX path5 = 100 := by norm_num [startX, maxDist, path5]
  have hbm : breakingDistM path5 none = 0 := by
    unfold breakingDistM
    rw [hdet]
    norm_num [jsOrO]
  have he : endX path5 none = 0 := by
    unfold endX
    rw [hbm]
    norm_num
  have hbdd : breakingDistDisplay path5 none = 0 := by
    unfold breakingDistDisplay
    rw [hbm]
    norm_num
  have hmap : wavePts path5 11 none =
      (List.range 601).map (fun i =>
        (gridX 100 0 i,
         elevAt path5 (wavelength_ref path5 11)
           (phi0 (wavelength_ref path5 11) (breakingDistM path5 none))
           (gridX 100 0 i))) := by
    unfold wavePts
    rw [hs, he, hbdd]
    rw [List.filterMap_congr (g := fun i =>
      some (gridX 100 0 i,
        elevAt path5 (wavelength_ref path5 11)
          (phi0 (wavelength_ref path5 11) (breakingDistM path5 none))
          (gridX 100 0 i))) ?_]
    · exact List.filterMap_eq_map _ ▸ rfl
    · intro i hi
      have hi600 : (i : ℚ) ≤ 600 := by
        exact_mod_cast Nat.lt_succ_iff.mp (List.mem_range.mp hi)
      have hi0 : (0 : ℚ) ≤ (i : ℚ) := by positivity
      rw [if_pos]
      constructor
      · have hg : gridX 100 0 i = 100 - (i : ℚ) / 6 := by
          unfold gridX; ring
        rw [hg]
        linarith
      · have hg : gridX 100 0 i = 100 - (i : ℚ) / 6 := by
          unfold gridX; ring
        rw [hg]
        have : max (0 : ℚ) 152 = 152 := by norm_num
        rw [this]
        linarith
  intro hsort
  rw [hW, hmap] at hsort
  rw [show (601 : ℕ) = 600 + 1 from rfl, List.range_succ_eq_map,
    List.map_cons, List.map_map] at hsort
  rw [show (600 : ℕ) = 599 + 1 from rfl, List.range_succ_eq_map,
    List.map_cons] at hsort
  have hrel := (List.sorted_cons.mp hsort).1 _ (List.mem_cons_self _ _)
  have : gridX 100 0 0 ≤ gridX 100 0 1 := hrel
  norm_num [gridX] at this

/-- Counting through `filterMap`: an element of the output satisfies `p` as
often as an input maps to a satisfying value. -/
theorem countP_filterMap {α β : Type} (f : α → Option β) (p : β → Bool) :
    ∀ l : List α, (l.filterMap f).countP p =
      l.countP (fun a => ((f a).map p).getD false) := by
  intro l
  induction l with
  | nil => rfl
  | cons a t ih =>
    cases hf : f a with
    | none =>
      rw [List.filterMap_cons_none hf, List.countP_cons, ih]
      simp [hf]
    | some b =>
      rw [List.filterMap_cons_some hf, List.countP_cons, List.countP_cons, ih]
      simp [hf]

/-- Overwriting the ordinate of one point leaves any count over abscissas
unchanged. -/
theorem countP_overwriteY (p : ℚ → Bool) :
    ∀ (l : List (ℚ × ℝ)) (i : ℕ) (y : ℝ),
      (overwriteY l i y).countP (fun q => p q.1) =
        l.countP (fun q => p q.1) := by
  intro l
  induction l with
  | nil => intro i y; rfl
  | cons a t ih =>
    intro i y
    cases i with
    | zero =>
      unfold overwriteY
      simp only [List.get?_cons_zero]
      rw [show (a :: t).set 0 (a.1, y) = (a.1, y) :: t from rfl]
      rw [List.countP_cons, List.countP_cons]
    | succ n =>
      unfold overwriteY
      simp only [List.get?_cons_succ]
      cases hget : t.get? n with
      | none => rfl
      | some v =>
        dsimp only
        rw [show (a :: t).set (n + 1) (v.1, y) = a :: t.set n (v.1, y) from rfl]
        rw [List.countP_cons, List.countP_cons]
        have hih := ih n y
        unfold overwriteY at hih
        rw [hget] at hih
        rw [hih]

/-- The ordinate-overwrite keeps every point's abscissa or leaves the list
unchanged: members are old members or the rewritten pair. -/
theorem mem_overwriteY (l : List (ℚ × ℝ)) (i : ℕ) (y : ℝ) (q : ℚ × ℝ) :
    q ∈ overwriteY l i y → q ∈ l ∨ ∃ v ∈ l, q = (v.1, y) := by
  intro hq
  unfold overwriteY at hq
  rcases hget : l.get? i with _ | v
  · rw [hget] at hq; exact Or.inl hq
  · rw [hget] at hq
    rcases List.mem_or_eq_of_mem_set hq with hmem | rfl
    · exact Or.inl hmem
    · exact Or.inr ⟨v, List.get?_mem hget, rfl⟩

/-- On the 601-point grid the end abscissa is hit exactly at index 600 when
the endpoints differ. -/
theorem gridX_eq_iff (sx ex : ℚ) (hne : sx ≠ ex) (i : ℕ) :
    gridX sx ex i = ex ↔ i = 600 := by
  unfold gridX
  constructor
  · intro h
    have h3 : (ex - sx) * ((i : ℚ) - 600) = 0 := by linear_combination 600 * h
    rcases mul_eq_zero.mp h3 with h4 | h4
    · exact absurd (sub_eq_zero.mp h4).symm hne
    · have : (i : ℚ) = 600 := by linarith
      exact_mod_cast this
  · rintro rfl
    push_cast
    ring

set_option maxRecDepth 8000 in
/-- C1 (amended): when a breaking point is detected at a positive distance,
the reference wavelength is positive, sample distances are pairwise distinct
and the offshore start differs from the breaking distance, then the phase
offset is `π/2 − k_ref·breakingDist`, the phase at the breaking distance is a
crest (`sin = 1`), and the wave surface contains exactly one point at the
breaking distance, whose elevation is the exact crest value `−H_break/2`. -/
theorem C1_breaking_crest (path : List Sample) (period : ℚ) (apiDist : Option ℚ)
    (b : Sample) (hdet : breakingPointFromPhysics path = some b)
    (hbx : 0 < b.x)
    (hd : path.Pairwise (fun p q => p.x ≠ q.x))
    (hL : 0 < wavelength_ref path period)
    (hsx : startX path ≠ b.x) :
    phi0 (wavelength_ref path period) (breakingDistM path apiDist) =
      Real.pi / 2 - 2 * Real.pi / ((wavelength_ref path period : ℚ) : ℝ) *
        ((breakingDistM path apiDist : ℚ) : ℝ) ∧
    Real.sin (2 * Real.pi / ((wavelength_ref path period : ℚ) : ℝ) *
        ((breakingDistM path apiDist : ℚ) : ℝ) +
      phi0 (wavelength_ref path period) (breakingDistM path apiDist)) = 1 ∧
    (waveShapeData path period apiDist).countP
      (fun q => decide (q.1 = b.x)) = 1 ∧
    (∀ q ∈ waveShapeData path period apiDist, q.1 = b.x →
      q.2 = -(((b.H : ℚ) : ℝ) / 2)) := by
  obtain ⟨p0, hp0mem, hp0h, hp078, hrec, -⟩ := breakingPoint_some_spec path b hdet
  have hxb : b.x = p0.x := by rw [hrec]
  have hHb : b.H = p0.H := by rw [hrec]
  have hpne : path ≠ [] := by
    intro h
    rw [h] at hp0mem
    exact absurd hp0mem (List.not_mem_nil p0)
  have hbd : breakingDistM path apiDist = b.x := by
    unfold breakingDistM
    rw [hdet]
    dsimp only
    unfold jsOr
    rw [if_neg (ne_of_gt hbx)]
  have hex : endX path apiDist = b.x := by
    unfold endX
    rw [hbd]
    exact max_eq_right hbx.le
  have hbdd : breakingDistDisplay path apiDist = b.x := by
    unfold breakingDistDisplay
    rw [hbd, if_pos hbx]
  have hphi : phi0 (wavelength_ref path period) (breakingDistM path apiDist) =
      Real.pi / 2 - 2 * Real.pi / ((wavelength_ref path period : ℚ) : ℝ) *
        ((breakingDistM path apiDist : ℚ) : ℝ) := by
    unfold phi0
    rw [if_pos hL]
  have hsin : Real.sin (2 * Real.pi / ((wavelength_ref path period : ℚ) : ℝ) *
      ((breakingDistM path apiDist : ℚ) : ℝ) +
      phi0 (wavelength_ref path period) (breakingDistM path apiDist)) = 1 := by
    rw [hphi]
    have harg : 2 * Real.pi / ((wavelength_ref path period : ℚ) : ℝ) *
        ((breakingDistM path apiDist : ℚ) : ℝ) +
        (Real.pi / 2 - 2 * Real.pi / ((wavelength_ref path period : ℚ) : ℝ) *
          ((breakingDistM path apiDist : ℚ) : ℝ)) = Real.pi / 2 := by ring
    rw [harg, Real.sin_pi_div_two]
  have hHloop : Hloop path b.x = b.H := by
    unfold Hloop
    rw [if_pos hpne, hxb, interpOn_exact path (fun s => s.H) p0 hp0mem hd]
    simp [hHb]
  have helev : elevAt path (wavelength_ref path period)
      (phi0 (wavelength_ref path period) (breakingDistM path apiDist)) b.x =
      -(((b.H : ℚ) : ℝ) / 2) := by
    unfold elevAt
    rw [hHloop]
    have hbxr : ((b.x : ℚ) : ℝ) = ((breakingDistM path apiDist : ℚ) : ℝ) := by
      rw [hbd]
    rw [hbxr, hsin, mul_one]
  have hgrid600 : gridX (startX path) (endX path apiDist) 600 = b.x := by
    rw [hex]
    unfold gridX
    push_cast
    ring
  have hgiff : ∀ i : ℕ, gridX (startX path) (endX path apiDist) i = b.x ↔ i = 600 := by
    intro i
    rw [hex]
    exact gridX_eq_iff _ _ hsx i
  have hcond600 : 0 ≤ gridX (startX path) (endX path apiDist) 600 ∧
      gridX (startX path) (endX path apiDist) 600 ≤
        max (breakingDistDisplay path apiDist) 152 := by
    rw [hgrid600, hbdd]
    exact ⟨hbx.le, le_max_left _ _⟩
  have hq600 : ((b.x : ℚ), elevAt path (wavelength_ref path period)
      (phi0 (wavelength_ref path period) (breakingDistM path apiDist)) b.x) ∈
      wavePts path period apiDist := by
    apply (mem_wavePts path period apiDist _).mpr
    refine ⟨600, List.mem_range.mpr (by norm_num), hcond600, ?_⟩
    rw [hgrid600]
  have hany : (wavePts path period apiDist).any
      (fun p => decide (|p.1 - breakingDistM path apiDist| < 1/10)) = true := by
    apply List.any_eq_true.mpr
    refine ⟨_, hq600, ?_⟩
    simp [hbd]
  have hWform : waveShapeData path period apiDist =
      sortAscBy Prod.fst (forceCrest (wavePts path period apiDist)
        (breakingDistM path apiDist) (ybreak b)) := by
    unfold waveShapeData
    rw [if_neg hpne, hdet]
    dsimp only
    rw [if_pos (by rw [hbd]; exact hbx.le)]
  have hcount : (waveShapeData path period apiDist).countP
      (fun q => decide (q.1 = b.x)) = 1 := by
    rw [hWform, (sortAscBy_perm Prod.fst _).countP_eq]
    unfold forceCrest
    rw [if_pos hany, countP_overwriteY (fun x => decide (x = b.x))]
    unfold wavePts
    rw [countP_filterMap]
    refine Eq.trans (List.countP_congr ?_)
      (show (List.range 601).countP (fun i => i == 600) = 1 by decide)
    intro i hi
    constructor
    · intro hp
      by_cases hcond : 0 ≤ gridX (startX path) (endX path apiDist) i ∧
          gridX (startX path) (endX path apiDist) i ≤
            max (breakingDistDisplay path apiDist) 152
      · rw [if_pos hcond] at hp
        simp only [Option.map_some', Option.getD_some, decide_eq_true_eq] at hp
        simp [(hgiff i).mp hp]
      · rw [if_neg hcond] at hp
        simp at hp
    · intro hi600
      have h600 : i = 600 := by simpa using hi600
      subst h600
      rw [if_pos hcond600]
      simp [hgrid600]
  refine ⟨hphi, hsin, hcount, ?_⟩
  intro q hq hq1
  rw [hWform] at hq
  have hq2 : q ∈ forceCrest (wavePts path period apiDist)
      (breakingDistM path apiDist) (ybreak b) :=
    (sortAscBy_perm Prod.fst _).mem_iff.mp hq
  unfold forceCrest at hq2
  rw [if_pos hany] at hq2
  rcases mem_overwriteY _ _ _ q hq2 with hmem | ⟨v, hvmem, rfl⟩
  · obtain ⟨i, hi, hcondi, rfl⟩ := (mem_wavePts path period apiDist q).mp hmem
    have hgi : gridX (startX path) (endX path apiDist) i = b.x := hq1
    show elevAt path (wavelength_ref path period)
      (phi0 (wavelength_ref path period) (breakingDistM path apiDist))
      (gridX (startX path) (endX path apiDist) i) = -(((b.H : ℚ) : ℝ) / 2)
    rw [hgi]
    exact helev
  · show ybreak b = -(((b.H : ℚ) : ℝ) / 2)
    unfold ybreak
    rw [jsOr_zero_right, Real.sin_pi_div_two, mul_one]

/-- C1 witness: on the §8 sample set (breaking at distance 50, height 0.9)
the wave surface holds exactly one point at distance 50 and the phase there
is an exact crest. -/
theorem C1_breaking_crest_witness :
    (waveShapeData path8 11 none).countP (fun q => decide (q.1 = 50)) = 1 ∧
    Real.sin (2 * Real.pi / ((wavelength_ref path8 11 : ℚ) : ℝ) *
        ((breakingDistM path8 none : ℚ) : ℝ) +
      phi0 (wavelength_ref path8 11) (breakingDistM path8 none)) = 1 := by
  have hdet : breakingPointFromPhysics path8 = some ⟨50, 1, 9/10, 5⟩ := by
    norm_num [breakingPointFromPhysics, path8, sortDescBy, qualB, cor, jsOr,
      List.find?]
  have hL : wavelength_ref path8 11 = 55 := by
    norm_num [wavelength_ref, breakingPointFromPhysics, path8, sortDescBy, qualB,
      cor, jsOr, List.find?]
  have h := C1_breaking_crest path8 11 none ⟨50, 1, 9/10, 5⟩ hdet
    (by norm_num)
    (by norm_num [path8, List.pairwise_cons])
    (by rw [hL]; norm_num)
    (by norm_num [startX, maxDist, path8])
  exact ⟨h.2.2.1, h.2.1⟩

/-- The degenerate sample set: its only sample qualifies and sits exactly at
the offshore start, so the synthesis domain collapses to a single abscissa. -/
def path1 : List Sample := [⟨100, 1, 9/10, 5⟩]

/-- C1 counterexample: on `path1` the breaking distance is 100 and the wave
surface contains 601 points at that distance (the whole grid collapses onto
it), so it does not contain exactly one such point. -/
theorem C1_counterexample :
    breakingDistM path1 none = 100 ∧
    (waveShapeData path1 11 none).countP (fun q => decide (q.1 = 100)) ≠ 1 := by
  have hdet : breakingPointFromPhysics path1 = some ⟨100, 1, 9/10, 5⟩ := by
    norm_num [breakingPointFromPhysics, path1, sortDescBy, qualB, cor, jsOr,
      List.find?]
  have hbd : breakingDistM path1 none = 100 := by
    unfold breakingDistM
    rw [hdet]
    norm_num [jsOr, jsOrO]
  refine ⟨hbd, ?_⟩
  have hsx : startX path1 = 100 := by norm_num [startX, maxDist, path1]
  have hex : endX path1 none = 100 := by
    unfold endX
    rw [hbd]
    norm_num
  have hbdd : breakingDistDisplay path1 none = 100 := by
    unfold breakingDistDisplay
    rw [hbd]
    norm_num
  have hg : ∀ i : ℕ, gridX (startX path1) (endX path1 none) i = 100 := by
    intro i
    rw [hsx, hex]
    unfold gridX
    ring
  have hWform : waveShapeData path1 11 none =
      sortAscBy Prod.fst (forceCrest (wavePts path1 11 none)
        (breakingDistM path1 none) (ybreak ⟨100, 1, 9/10, 5⟩)) := by
    unfold waveShapeData
    rw [if_neg (by norm_num [path1]), hdet]
    dsimp only
    rw [if_pos (by rw [hbd]; norm_num)]
  have hcount : (wavePts path1 11 none).countP
      (fun q => decide (q.1 = 100)) = 601 := by
    unfold wavePts
    rw [countP_filterMap]
    rw [List.countP_eq_length.mpr ?_, List.length_range]
    intro i hi
    rw [if_pos ?_]
    · simp [hg i]
    · rw [hg i, hbdd]
      norm_num [le_max_iff]
  have hany : (wavePts path1 11 none).any
      (fun p => decide (|p.1 - breakingDistM path1 none| < 1/10)) = true := by
    apply List.any_eq_true.mpr
    refine ⟨_, (mem_wavePts path1 11 none _).mpr
      ⟨0, List.mem_range.mpr (by norm_num), ?_, rfl⟩, ?_⟩
    · rw [hg 0, hbdd]
      norm_num [le_max_iff]
    · simp [hg 0, hbd]
  rw [hWform, (sortAscBy_perm Prod.fst _).countP_eq]
  unfold forceCrest
  rw [if_pos hany, countP_overwriteY (fun x => decide (x = 100)), hcount]
  norm_num

end TigerLine
